import Mathlib

/-!
Verification of the allfollow lock-graph tool.

The development shallowly embeds the program: the lock-graph data model and
the edge resolver (which live in the flake_lock module, absent from the
sources, so they are modelled from the specification), and the algorithms of
main.rs (reference counting, follows substitution, orphan pruning, config
emission, manifest patching), translated directly from the source.

Recursive graph walks in the source are general recursion without a
structural measure, so every walk takes an explicit fuel argument; a result
of none means the walk either panicked or ran out of fuel, and theorems about
terminating runs hypothesise a successful (some) run or supply enough fuel.
-/

set_option autoImplicit false

/-- Modelled from the spec: an Edge is a discriminated value, either a direct
reference to another node by identifier, or an ordered sequence of input
names resolved by walking from the root node (flake_lock module, absent from
the sources; spec section 3). -/
inductive NodeEdge where
  | indexed (id : String)
  | follows (path : List String)
deriving DecidableEq

/-- Modelled from the spec: a Node is a mapping from input name to Edge with
insertion order preserved (flake_lock module, absent from the sources; spec
section 3). An association list models the IndexMap. -/
structure Node where
  edges : List (String × NodeEdge)
deriving DecidableEq

/-- Modelled from the spec: the LockFile holds nodes keyed by identifier, the
distinguished root identifier, and the schema version (flake_lock module,
absent from the sources; spec sections 3 and 6). -/
structure LockFile where
  nodes : List (String × Node)
  rootIndex : String
  version : Int
deriving DecidableEq

/-- First entry of an association list with the given key. -/
def findEntry {α : Type} : List (String × α) → String → Option α
  | [], _ => none
  | (k, v) :: rest, key => if k = key then some v else findEntry rest key

/-- Modelled from the spec: node lookup by identifier (spec section 4.1). -/
def LockFile.getNode (g : LockFile) (id : String) : Option Node :=
  findEntry g.nodes id

/-- Modelled from the spec: removal of a node by identifier, a no-op when the
identifier is absent (spec section 4.1). -/
def LockFile.removeNode (g : LockFile) (id : String) : LockFile :=
  { g with nodes := g.nodes.filter (fun p => p.1 ≠ id) }

/-- Writing a node back into the graph through a mutable view: the entry with
the given key is replaced, all other entries are untouched. -/
def LockFile.setNode (g : LockFile) (id : String) (n : Node) : LockFile :=
  { g with nodes := g.nodes.map (fun p => if p.1 = id then (p.1, n) else p) }

/-- Edge lookup on one node by input name. -/
def Node.getEdge (n : Node) (name : String) : Option NodeEdge :=
  findEntry n.edges name

/-- Modelled from the spec: the index accessor of an edge, some for a direct
index reference and none for a follows path (used by main.rs through
edge.index()). -/
def NodeEdge.index : NodeEdge → Option String
  | .indexed id => some id
  | .follows _ => none

/-- Modelled from the spec: the follows-path walk of resolve_edge, starting
at a current node and looking up each name in turn among the current node's
edges, replacing the current node with the resolved target of that edge
(spec section 4.2). The resolution of each hop edge is the callback res. -/
def walkWith (g : LockFile) (res : NodeEdge → Option String) :
    String → List String → Option String
  | cur, [] => some cur
  | cur, name :: rest =>
    match g.getNode cur with
    | none => none
    | some node =>
      match node.getEdge name with
      | none => none
      | some e =>
        match res e with
        | none => none
        | some next => walkWith g res next rest

/-- Modelled from the spec: resolve_edge (spec section 4.2). An indexed edge
resolves to its identifier when that node exists; a follows path is walked
from the root. Fuel bounds the recursion through hop edges; none is a
resolution failure (DanglingReference or UnresolvableFollowsPath) or fuel
exhaustion. -/
def resolveEdge (g : LockFile) : Nat → NodeEdge → Option String
  | 0, _ => none
  | _ + 1, .indexed id => if (g.getNode id).isSome then some id else none
  | fuel + 1, .follows path => walkWith g (fun e => resolveEdge g fuel e) g.rootIndex path

/-- Increment the first entry with the given key; none when the key is absent
(the unwrap in the visit closure of count_from_index). -/
def bump : List (String × Nat) → String → Option (List (String × Nat))
  | [], _ => none
  | (k, v) :: rest, key =>
    if k = key then some ((k, v + 1) :: rest)
    else
      match bump rest key with
      | none => none
      | some rest1 => some ((k, v) :: rest1)

/-- The edge loop of recurse_inputs (main.rs): resolve each edge (its unwrap
is a panic, hence none) and recurse, through the callback recN, into the
resolved node. -/
def recEdgesWith (g : LockFile) (rfuel : Nat)
    (recN : String → List (String × Nat) → Option (List (String × Nat))) :
    List (String × NodeEdge) → List (String × Nat) → Option (List (String × Nat))
  | [], t => some t
  | (_, e) :: rest, t =>
    match resolveEdge g rfuel e with
    | none => none
    | some j =>
      match recN j t with
      | none => none
      | some t2 => recEdgesWith g rfuel recN rest t2

/-- Translation of recurse_inputs (main.rs): fetch the node (its unwrap is a
panic, hence none), apply the visit operation (here: bump the tally), then
resolve and recurse into every edge. rfuel feeds resolve_edge, fuel bounds
the node recursion. -/
def recurseInputs (g : LockFile) (rfuel : Nat) :
    Nat → String → List (String × Nat) → Option (List (String × Nat))
  | 0, _, _ => none
  | fuel + 1, index, t =>
    match g.getNode index with
    | none => none
    | some node =>
      match bump t index with
      | none => none
      | some t1 =>
        recEdgesWith g rfuel (fun j acc => recurseInputs g rfuel fuel j acc) node.edges t1

/-- The edge loop of recurse_inputs at a fixed recursion fuel. -/
def recurseEdges (g : LockFile) (rfuel fuel : Nat) :
    List (String × NodeEdge) → List (String × Nat) → Option (List (String × Nat)) :=
  recEdgesWith g rfuel (fun j acc => recurseInputs g rfuel fuel j acc)

/-- Translation of FlakeNodeVisits::count_from_index (main.rs): a tally with
an explicit zero entry for every node identifier, then a recursive walk from
the given index incrementing each visited identifier. -/
def countFromIndex (g : LockFile) (rfuel fuel : Nat) (index : String) :
    Option (List (String × Nat)) :=
  recurseInputs g rfuel fuel index (g.nodes.map (fun p => (p.1, 0)))

/-- The edge loop of substitute_node_inputs_with_root_inputs (main.rs): an
edge whose name matches a root edge name is replaced by that root edge
verbatim (indexed mode) or by a one-hop follows of the same name; an edge
with no match is kept, but the log line resolves it and its unwrap is a
panic, hence none on resolution failure. -/
def substEdges (g : LockFile) (root : Node) (indexed : Bool) (rfuel : Nat) :
    List (String × NodeEdge) → Option (List (String × NodeEdge))
  | [] => some []
  | (edgeName, e) :: rest =>
    match root.getEdge edgeName with
    | some rootEdge =>
      match substEdges g root indexed rfuel rest with
      | none => none
      | some rest1 =>
        some ((edgeName, if indexed then rootEdge else .follows [edgeName]) :: rest1)
    | none =>
      match resolveEdge g rfuel e with
      | none => none
      | some _ =>
        match substEdges g root indexed rfuel rest with
        | none => none
        | some rest1 => some ((edgeName, e) :: rest1)

/-- Translation of substitute_node_inputs_with_root_inputs (main.rs): fetch
the root (its expect is a panic, hence none) and rewrite the node's edges. -/
def substituteNodeInputs (g : LockFile) (node : Node) (indexed : Bool) (rfuel : Nat) :
    Option Node :=
  match g.getNode g.rootIndex with
  | none => none
  | some root =>
    match substEdges g root indexed rfuel node.edges with
    | none => none
    | some edges1 => some { edges := edges1 }

/-- The loop of substitute_flake_inputs_with_follows (main.rs) over the
snapshot of the root's indexed edges: fetch each input node (its expect is a
panic, hence none), rewrite it, and write it back. -/
def substFold (indexed : Bool) (rfuel : Nat) :
    List (String × String) → LockFile → Option LockFile
  | [], g => some g
  | (_, idx) :: rest, g =>
    match g.getNode idx with
    | none => none
    | some input =>
      match substituteNodeInputs g input indexed rfuel with
      | none => none
      | some input1 => substFold indexed rfuel rest (g.setNode idx input1)

/-- The root inputs rewritten by substitution: the name and target of every
root edge that is a direct index reference. -/
def rootIndexedInputs (root : Node) : List (String × String) :=
  root.edges.filterMap (fun p => (p.2.index).map (fun i => (p.1, i)))

/-- Translation of substitute_flake_inputs_with_follows (main.rs): for every
root edge holding a direct index, rewrite the referenced input node. -/
def substituteFlakeInputs (g : LockFile) (indexed : Bool) (rfuel : Nat) :
    Option LockFile :=
  match g.getNode g.rootIndex with
  | none => none
  | some root => substFold indexed rfuel (rootIndexedInputs root) g

/-- Translation of prune_orphan_nodes (main.rs): count visits from the root,
collect the identifiers with count zero, and remove each of them. -/
def pruneOrphanNodes (g : LockFile) (rfuel fuel : Nat) : Option LockFile :=
  match countFromIndex g rfuel fuel g.rootIndex with
  | none => none
  | some tally =>
    some (((tally.filter (fun p => p.2 = 0)).map Prod.fst).foldl LockFile.removeNode g)

/-- The composition run by the prune subcommand of main.rs: substitution
followed by orphan pruning. -/
def subThenPrune (g : LockFile) (indexed : Bool) (rfuel fuel : Nat) : Option LockFile :=
  match substituteFlakeInputs g indexed rfuel with
  | none => none
  | some g1 => pruneOrphanNodes g1 rfuel fuel

/-- Reachability from the start identifier by chains of edge resolutions:
the start is reached, and from a reached node every successfully resolving
edge reaches its target. -/
inductive Reaches (g : LockFile) (start : String) : String → Prop
  | refl : Reaches g start start
  | step {i j : String} {n : Node} {p : String × NodeEdge} {f : Nat} :
      Reaches g start i → g.getNode i = some n → p ∈ n.edges →
      resolveEdge g f p.2 = some j → Reaches g start j

/-- The edge loop of traverse_and_print_config (main.rs): a name matching a
root input emits one follows line and stops descending; otherwise the edge is
resolved, a failed resolution is skipped silently, an already-visited target
is skipped, and an unvisited target is pushed and descended into through the
callback recN. Alongside the emitted text, a ghost trace records every
descent as the child identifier and the visited stack at that moment. -/
def travEdgesWith (g : LockFile) (rootInputs : List String) (rfuel : Nat)
    (recN : String → List String → List String →
      Option (String × List (String × List String))) :
    List (String × NodeEdge) → List String → List String →
    Option (String × List (String × List String))
  | [], _, _ => some ("", [])
  | (edgeName, e) :: rest, path, visited =>
    if rootInputs.contains edgeName then
      match travEdgesWith g rootInputs rfuel recN rest path visited with
      | none => none
      | some (out, evs) =>
        some ("    " ++ String.intercalate ".inputs." (path ++ [edgeName]) ++
          ".follows = \"" ++ edgeName ++ "\";\n" ++ out, evs)
    else
      match resolveEdge g rfuel e with
      | none => travEdgesWith g rootInputs rfuel recN rest path visited
      | some child =>
        if visited.contains child then
          travEdgesWith g rootInputs rfuel recN rest path visited
        else
          match recN child (path ++ [edgeName]) (visited ++ [child]) with
          | none => none
          | some (out1, evs1) =>
            match travEdgesWith g rootInputs rfuel recN rest path visited with
            | none => none
            | some (out2, evs2) =>
              some (out1 ++ out2, (child, visited) :: (evs1 ++ evs2))

/-- Translation of traverse_and_print_config (main.rs): fetch the node (its
expect is a panic, hence none) and process its edges. -/
def traverseNode (g : LockFile) (rootInputs : List String) (rfuel : Nat) :
    Nat → String → List String → List String →
    Option (String × List (String × List String))
  | 0, _, _, _ => none
  | fuel + 1, index, path, visited =>
    match g.getNode index with
    | none => none
    | some node =>
      travEdgesWith g rootInputs rfuel
        (fun i p v => traverseNode g rootInputs rfuel fuel i p v) node.edges path visited

/-- The edge loop of traverse_and_print_config at a fixed recursion fuel. -/
def traverseEdges (g : LockFile) (rootInputs : List String) (rfuel fuel : Nat) :
    List (String × NodeEdge) → List String → List String →
    Option (String × List (String × List String)) :=
  travEdgesWith g rootInputs rfuel
    (fun i p v => traverseNode g rootInputs rfuel fuel i p v)

/-- The top loop of print_flake_follows_config (main.rs): each root edge that
holds a direct index starts a traversal with the input name as the path and
the index as the visited stack. -/
def printFold (g : LockFile) (rootInputs : List String) (rfuel fuel : Nat) :
    List (String × NodeEdge) → Option (String × List (String × List String))
  | [] => some ("", [])
  | (inputName, e) :: rest =>
    match e.index with
    | none => printFold g rootInputs rfuel fuel rest
    | some index =>
      match traverseNode g rootInputs rfuel fuel index [inputName] [index] with
      | none => none
      | some (out1, evs1) =>
        match printFold g rootInputs rfuel fuel rest with
        | none => none
        | some (out2, evs2) => some (out1 ++ out2, evs1 ++ evs2)

/-- Translation of print_flake_follows_config (main.rs): the start marker,
the inputs declaration wrapper, the traversal output for every root input
holding an index, the closing wrapper, and the end marker. -/
def printFlakeFollowsConfig (g : LockFile) (rfuel fuel : Nat) :
    Option (String × List (String × List String)) :=
  match g.getNode g.rootIndex with
  | none => none
  | some root =>
    match printFold g (root.edges.map Prod.fst) rfuel fuel root.edges with
    | none => none
    | some (body, evs) =>
      some ("# START INPUT FOLLOW BLOCK -- DO NOT EDIT MANUALLY\n" ++
        "inputs = \x7b\n" ++ body ++ "\x7d;\n" ++
        "# END INPUT FOLLOW BLOCK -- DO NOT EDIT MANUALLY", evs)

/-- First index at which a pattern occurs as a contiguous sublist, the model
of str::find on character sequences. -/
def findSub (content pat : List Char) : Nat → Option Nat := fun i =>
  if pat.isPrefixOf content then some i
  else
    match content with
    | [] => none
    | _ :: rest => findSub rest pat (i + 1)

/-- Last index holding the given character, the model of str::rfind. -/
def rfindChar : List Char → Char → Option Nat → Nat → Option Nat
  | [], _, acc, _ => acc
  | x :: rest, c, acc, i => rfindChar rest c (if x = c then some i else acc) (i + 1)

/-- One line split of str::lines: segments between newline characters, a
trailing carriage return stripped from each segment. -/
def splitNl : List Char → List (List Char)
  | [] => [[]]
  | c :: rest =>
    if c = '\n' then [] :: splitNl rest
    else
      match splitNl rest with
      | [] => [[c]]
      | seg :: segs => (c :: seg) :: segs

/-- Strip one trailing carriage return, as str::lines does per line. -/
def stripCr (l : List Char) : List Char :=
  if l.getLast? = some '\r' then l.dropLast else l

/-- The model of str::lines: split on newlines, drop a final empty segment
produced by a trailing newline, strip a trailing carriage return per line. -/
def rustLines (l : List Char) : List (List Char) :=
  let segs := splitNl l
  (if segs.getLast? = some [] then segs.dropLast else segs).map stripCr

/-- The start marker text of update_flake_nix (main.rs). -/
def startMarker : List Char := "# START INPUT FOLLOW BLOCK -- DO NOT EDIT MANUALLY".data

/-- The end marker text of update_flake_nix (main.rs). -/
def endMarker : List Char := "# END INPUT FOLLOW BLOCK -- DO NOT EDIT MANUALLY".data

/-- Translation of update_flake_nix (main.rs): locate the first occurrence of
each marker (either missing, or start at or after end, is a panic, hence
none), take the indentation between the last newline before the start marker
and the marker itself, prefix it to every line of the generated block, and
splice the block over the region from the start of the marker line through
the end of the end marker. -/
def updateFlakeNix (content config : List Char) : Option (List Char) :=
  match findSub content startMarker 0, findSub content endMarker 0 with
  | some start, some stop =>
    if stop ≤ start then none
    else
      let lineStart :=
        match rfindChar (content.take start) '\n' none 0 with
        | some i => i + 1
        | none => 0
      let indent := (content.take start).drop lineStart
      let indented :=
        List.intercalate ['\n'] ((rustLines config).map (fun ln => indent ++ ln))
      some (content.take lineStart ++ indented ++ content.drop (stop + endMarker.length))
  | _, _ => none

/-- Translation of the version gate of read_flake_lock (main.rs line 321):
the lock is rejected exactly when its version is below the minimum and
simultaneously above the maximum. -/
def readFlakeLockVersionGate (minV maxV : Int) (lock : LockFile) : Option LockFile :=
  if lock.version < minV ∧ lock.version > maxV then none else some lock

/-- The scenario graph of the spec: root with inputs nixpkgs (index n1) and
foo (index n2), where n2 has an input nixpkgs (index n3). -/
def scenarioGraph : LockFile :=
  { nodes := [("root", { edges := [("nixpkgs", .indexed "n1"), ("foo", .indexed "n2")] }),
              ("n1", { edges := [] }),
              ("n2", { edges := [("nixpkgs", .indexed "n3")] }),
              ("n3", { edges := [] })],
    rootIndex := "root", version := 7 }

/-- A graph with a grandchild input: root has one input a (index nA), nA has
an input b (index nB), and nB has an input named a (index nC), a name that
matches a root input. -/
def grandchildGraph : LockFile :=
  { nodes := [("root", { edges := [("a", .indexed "nA")] }),
              ("nA", { edges := [("b", .indexed "nB")] }),
              ("nB", { edges := [("a", .indexed "nC")] }),
              ("nC", { edges := [] })],
    rootIndex := "root", version := 7 }

/-- A graph with a cycle between nA and nB through edge names that match no
root input name. -/
def cycleGraph : LockFile :=
  { nodes := [("root", { edges := [("x", .indexed "nA")] }),
              ("nA", { edges := [("y", .indexed "nB")] }),
              ("nB", { edges := [("z", .indexed "nA")] })],
    rootIndex := "root", version := 7 }

/-- A graph with an orphan: node stray is never referenced by any edge. -/
def orphanGraph : LockFile :=
  { nodes := [("root", { edges := [("a", .indexed "nA")] }),
              ("nA", { edges := [] }),
              ("stray", { edges := [] })],
    rootIndex := "root", version := 7 }

/-- A graph with a dangling edge: node nA has an edge named y pointing at an
identifier that is not a node of the graph. -/
def danglingGraph : LockFile :=
  { nodes := [("root", { edges := [("x", .indexed "nA")] }),
              ("nA", { edges := [("y", .indexed "ghost")] })],
    rootIndex := "root", version := 7 }

/-- Pointwise dominance of one tally by another with the same keys. -/
def TallyLE (t t' : List (String × Nat)) : Prop :=
  t'.map Prod.fst = t.map Prod.fst ∧
  ∀ k v, findEntry t k = some v → ∃ v', findEntry t' k = some v' ∧ v ≤ v'

/-- Well-formedness invariants of the IndexMap containers of the source: the
graph's node identifiers are unique, and each node's edge names are unique. -/
def GoodKeys (g : LockFile) : Prop :=
  (g.nodes.map Prod.fst).Nodup ∧ ∀ p ∈ g.nodes, (p.2.edges.map Prod.fst).Nodup

/-- A tally entry that records at least one visit. -/
def tallyPos (t : List (String × Nat)) (id : String) : Prop :=
  ∃ v, findEntry t id = some v ∧ 1 ≤ v

/-- A node identifier whose node exists and whose every edge resolves, at the
given resolution fuel, to an identifier with a positive tally entry. -/
def ClosedAt (g : LockFile) (rfuel : Nat) (t : List (String × Nat)) (id : String) : Prop :=
  ∃ n, g.getNode id = some n ∧
    ∀ p ∈ n.edges, ∃ j, resolveEdge g rfuel p.2 = some j ∧ tallyPos t j

/-! ## Basic association list lemmas -/

theorem findEntry_eq_none {α : Type} (l : List (String × α)) (key : String) :
    findEntry l key = none ↔ key ∉ l.map Prod.fst := by
  induction l with
  | nil => simp [findEntry]
  | cons p rest ih =>
    obtain ⟨k, v⟩ := p
    by_cases hk : k = key
    · subst hk
      simp [findEntry]
    · simp only [findEntry, if_neg hk, ih, List.map_cons, List.mem_cons]
      constructor
      · rintro h (h1 | h1)
        · exact hk h1.symm
        · exact h h1
      · intro h h1
        exact h (Or.inr h1)

theorem findEntry_isSome {α : Type} (l : List (String × α)) (key : String) :
    (findEntry l key).isSome = true ↔ key ∈ l.map Prod.fst := by
  rw [Option.isSome_iff_ne_none]
  simp [findEntry_eq_none]

theorem findEntry_mem {α : Type} {l : List (String × α)} {key : String} {v : α}
    (h : findEntry l key = some v) : (key, v) ∈ l := by
  induction l with
  | nil => simp [findEntry] at h
  | cons p rest ih =>
    obtain ⟨k, w⟩ := p
    by_cases hk : k = key
    · subst hk
      simp [findEntry] at h
      simp [h]
    · simp [findEntry, hk] at h
      simp [ih h]

theorem mem_findEntry {α : Type} {l : List (String × α)} {key : String} {v : α}
    (hnd : (l.map Prod.fst).Nodup) (h : (key, v) ∈ l) : findEntry l key = some v := by
  induction l with
  | nil => simp at h
  | cons p rest ih =>
    obtain ⟨k, w⟩ := p
    simp only [List.map_cons, List.nodup_cons] at hnd
    rcases List.mem_cons.mp h with h1 | h1
    · rw [Prod.mk.injEq] at h1
      obtain ⟨hk, hv⟩ := h1
      subst hk
      subst hv
      simp [findEntry]
    · have hk : k ≠ key := by
        intro he
        subst he
        exact hnd.1 (by simpa using List.mem_map_of_mem Prod.fst h1)
      simp [findEntry, hk, ih hnd.2 h1]

/-! ## Claim C1: the schema version gate -/

/-- Claim C1. The claim states that a version outside the inclusive range
causes read_flake_lock to fail. The code is wrong: the gate at main.rs line
321 combines its comparisons with a logical and, so whenever the minimum does
not exceed the maximum the rejection branch is unreachable and every version,
in range or not, is accepted. -/
theorem claim1_version_gate_never_rejects (minV maxV : Int) (lock : LockFile)
    (h : minV ≤ maxV) : readFlakeLockVersionGate minV maxV lock = some lock := by
  have : ¬ (lock.version < minV ∧ lock.version > maxV) := by
    rintro ⟨h1, h2⟩
    omega
  simp [readFlakeLockVersionGate, this]

/-- Witness for claim C1: with the supported range being exactly version 7, a
lock file of version 6 — strictly below the minimum — is accepted. -/
theorem claim1_version_gate_never_rejects_witness :
    (7 : Int) ≤ 7 ∧ readFlakeLockVersionGate 7 7
      { nodes := [], rootIndex := "root", version := 6 } =
      some { nodes := [], rootIndex := "root", version := 6 } :=
  ⟨by decide, claim1_version_gate_never_rejects 7 7 _ (by decide)⟩

/-! ## Claim C3: per-node substitution semantics -/

theorem substEdges_eq_map (g : LockFile) (root : Node) (ind : Bool) (rfuel : Nat)
    (l : List (String × NodeEdge))
    (hres : ∀ p ∈ l, root.getEdge p.1 = none → (resolveEdge g rfuel p.2).isSome = true) :
    substEdges g root ind rfuel l = some (l.map (fun p =>
      (p.1, match root.getEdge p.1 with
            | some re => if ind then re else .follows [p.1]
            | none => p.2))) := by
  induction l with
  | nil => simp [substEdges]
  | cons p rest ih =>
    obtain ⟨en, e⟩ := p
    have hres1 : ∀ q ∈ rest, root.getEdge q.1 = none →
        (resolveEdge g rfuel q.2).isSome = true := by
      intro q hq
      exact hres q (List.mem_cons_of_mem _ hq)
    cases hrt : root.getEdge en with
    | some re => simp [substEdges, hrt, ih hres1]
    | none =>
      have hr : (resolveEdge g rfuel e).isSome = true :=
        hres (en, e) (List.mem_cons_self _ _) hrt
      obtain ⟨j, hj⟩ := Option.isSome_iff_exists.mp hr
      simp [substEdges, hrt, hj, ih hres1]

/-- Claim C3. For a node rewritten by substitution, each edge whose name
matches a root edge name is replaced by a one-element follows of that name
(default) or by the root's edge verbatim (indexed mode), and each edge whose
name matches no root edge keeps its value, provided those unmatched edges
resolve (their resolution is logged, and its failure is a panic). -/
theorem claim3_substitute_node_edges (g : LockFile) (node : Node) (ind : Bool)
    (rfuel : Nat) (root : Node)
    (hroot : g.getNode g.rootIndex = some root)
    (hres : ∀ p ∈ node.edges, root.getEdge p.1 = none →
      (resolveEdge g rfuel p.2).isSome = true) :
    substituteNodeInputs g node ind rfuel = some { edges := node.edges.map (fun p =>
      (p.1, match root.getEdge p.1 with
            | some re => if ind then re else .follows [p.1]
            | none => p.2)) } := by
  simp [substituteNodeInputs, hroot, substEdges_eq_map g root ind rfuel node.edges hres]

/-- Witness for claim C3: the scenario input node n2, whose nixpkgs edge
matches a root edge and becomes a follows of the same name. -/
theorem claim3_substitute_node_edges_witness :
    scenarioGraph.getNode scenarioGraph.rootIndex =
      some { edges := [("nixpkgs", NodeEdge.indexed "n1"), ("foo", NodeEdge.indexed "n2")] } ∧
    (∀ p ∈ [("nixpkgs", NodeEdge.indexed "n3")],
      Node.getEdge { edges := [("nixpkgs", NodeEdge.indexed "n1"),
        ("foo", NodeEdge.indexed "n2")] } p.1 = none →
      (resolveEdge scenarioGraph 10 p.2).isSome = true) ∧
    substituteNodeInputs scenarioGraph { edges := [("nixpkgs", NodeEdge.indexed "n3")] }
        false 10 =
      some { edges := [("nixpkgs", NodeEdge.indexed "n3")].map (fun p =>
        (p.1, match Node.getEdge { edges := [("nixpkgs", NodeEdge.indexed "n1"),
                ("foo", NodeEdge.indexed "n2")] } p.1 with
              | some re => if false then re else .follows [p.1]
              | none => p.2)) } :=
  ⟨by decide, by decide,
    claim3_substitute_node_edges scenarioGraph
      { edges := [("nixpkgs", NodeEdge.indexed "n3")] } false 10
      { edges := [("nixpkgs", NodeEdge.indexed "n1"), ("foo", NodeEdge.indexed "n2")] }
      (by decide) (by decide)⟩

/-! ## Claim C8: the scenario emission -/

/-- Claim C8. On the scenario graph the emitted configuration is exactly the
start marker, the inputs declaration wrapper, the single follows line for
foo's nixpkgs input, the closing wrapper, and the end marker. -/
theorem claim8_scenario_config_output :
    printFlakeFollowsConfig scenarioGraph 10 10 =
      some ("# START INPUT FOLLOW BLOCK -- DO NOT EDIT MANUALLY\n" ++
        "inputs = \x7b\n" ++
        "    foo.inputs.nixpkgs.follows = \"nixpkgs\";\n" ++
        "\x7d;\n" ++
        "# END INPUT FOLLOW BLOCK -- DO NOT EDIT MANUALLY", []) := by
  decide

/-! ## Claim C10: silent skip of failed resolutions during config emission -/

/-- Claim C10. During config emission an edge whose name matches no root
input and whose resolution fails is skipped silently: the traversal of a node
with that edge equals the traversal without it. The same resolution failure
is fatal in the other traversals: the counting walk returns none at that
edge, and so does the substitution edge loop when the name has no root
match. -/
theorem claim10_failed_resolution_skipped (g : LockFile) (ri : List String)
    (rfuel fuel : Nat) (l1 l2 : List (String × NodeEdge)) (path visited : List String)
    (name : String) (e : NodeEdge) (t : List (String × Nat)) (root : Node) (ind : Bool)
    (h1 : ri.contains name = false)
    (h2 : resolveEdge g rfuel e = none)
    (h3 : root.getEdge name = none) :
    traverseEdges g ri rfuel fuel (l1 ++ (name, e) :: l2) path visited =
      traverseEdges g ri rfuel fuel (l1 ++ l2) path visited ∧
    recurseEdges g rfuel fuel ((name, e) :: l2) t = none ∧
    substEdges g root ind rfuel ((name, e) :: l2) = none := by
  refine ⟨?_, ?_, ?_⟩
  · simp only [traverseEdges]
    induction l1 with
    | nil =>
      simp only [List.nil_append, travEdgesWith, h1, h2]
      simp
    | cons q l1 ih =>
      obtain ⟨qn, qe⟩ := q
      simp only [List.cons_append, travEdgesWith, List.append_eq, ih]
  · simp [recurseEdges, recEdgesWith, h2]
  · simp [substEdges, h3, h2]

/-- Witness for claim C10: the dangling graph, whose node nA has an edge y
resolving to a missing identifier. -/
theorem claim10_failed_resolution_skipped_witness :
    (["x"].contains "y" = false) ∧
    (resolveEdge danglingGraph 5 (NodeEdge.indexed "ghost") = none) ∧
    (Node.getEdge { edges := [("x", NodeEdge.indexed "nA")] } "y" = none) ∧
    (traverseEdges danglingGraph ["x"] 5 5
        ([] ++ ("y", NodeEdge.indexed "ghost") :: []) ["x"] ["nA"] =
      traverseEdges danglingGraph ["x"] 5 5 ([] ++ []) ["x"] ["nA"] ∧
    recurseEdges danglingGraph 5 5 (("y", NodeEdge.indexed "ghost") :: []) [("root", 1)] = none ∧
    substEdges danglingGraph { edges := [("x", NodeEdge.indexed "nA")] } false 5
      (("y", NodeEdge.indexed "ghost") :: []) = none) :=
  ⟨by decide, by decide, by decide,
    claim10_failed_resolution_skipped danglingGraph ["x"] 5 5 [] [] ["x"] ["nA"]
      "y" (NodeEdge.indexed "ghost") [("root", 1)]
      { edges := [("x", NodeEdge.indexed "nA")] } false
      (by decide) (by decide) (by decide)⟩

/-! ## Claim C4: tally totality -/

theorem bump_keys {t t' : List (String × Nat)} {key : String}
    (h : bump t key = some t') : t'.map Prod.fst = t.map Prod.fst := by
  induction t generalizing t' with
  | nil => simp [bump] at h
  | cons p rest ih =>
    obtain ⟨k, v⟩ := p
    by_cases hk : k = key
    · subst hk
      simp only [bump, if_pos rfl] at h
      cases h
      simp
    · simp only [bump, if_neg hk] at h
      cases hb : bump rest key with
      | none => rw [hb] at h; cases h
      | some rest1 =>
        rw [hb] at h
        cases h
        simp [ih hb]

theorem bump_findEntry_self {t t' : List (String × Nat)} {key : String}
    (h : bump t key = some t') :
    ∃ v, findEntry t key = some v ∧ findEntry t' key = some (v + 1) := by
  induction t generalizing t' with
  | nil => simp [bump] at h
  | cons p rest ih =>
    obtain ⟨k, v⟩ := p
    by_cases hk : k = key
    · subst hk
      simp only [bump, if_pos rfl] at h
      cases h
      exact ⟨v, by simp [findEntry]⟩
    · simp only [bump, if_neg hk] at h
      cases hb : bump rest key with
      | none => rw [hb] at h; cases h
      | some rest1 =>
        rw [hb] at h
        cases h
        obtain ⟨w, hw1, hw2⟩ := ih hb
        exact ⟨w, by simp [findEntry, hk, hw1], by simp [findEntry, hk, hw2]⟩

theorem bump_findEntry_other {t t' : List (String × Nat)} {key k : String}
    (h : bump t key = some t') (hk : k ≠ key) : findEntry t' k = findEntry t k := by
  induction t generalizing t' with
  | nil => simp [bump] at h
  | cons p rest ih =>
    obtain ⟨k0, v⟩ := p
    by_cases hk0 : k0 = key
    · subst hk0
      simp only [bump, if_pos rfl] at h
      cases h
      have : k0 ≠ k := fun he => hk he.symm
      simp [findEntry, this]
    · simp only [bump, if_neg hk0] at h
      cases hb : bump rest key with
      | none => rw [hb] at h; cases h
      | some rest1 =>
        rw [hb] at h
        cases h
        by_cases hkk : k0 = k <;> simp [findEntry, hkk, ih hb]

theorem tallyLE_refl (t : List (String × Nat)) : TallyLE t t :=
  ⟨rfl, fun _ v h => ⟨v, h, le_refl v⟩⟩

theorem tallyLE_trans {t1 t2 t3 : List (String × Nat)}
    (h12 : TallyLE t1 t2) (h23 : TallyLE t2 t3) : TallyLE t1 t3 := by
  refine ⟨h23.1.trans h12.1, fun k v h => ?_⟩
  obtain ⟨v2, hv2, hle2⟩ := h12.2 k v h
  obtain ⟨v3, hv3, hle3⟩ := h23.2 k v2 hv2
  exact ⟨v3, hv3, hle2.trans hle3⟩

theorem bump_tallyLE {t t' : List (String × Nat)} {key : String}
    (h : bump t key = some t') : TallyLE t t' := by
  refine ⟨bump_keys h, fun k v hv => ?_⟩
  by_cases hk : k = key
  · subst hk
    obtain ⟨w, hw1, hw2⟩ := bump_findEntry_self h
    rw [hv] at hw1
    cases hw1
    exact ⟨v + 1, hw2, Nat.le_succ v⟩
  · exact ⟨v, by rw [bump_findEntry_other h hk, hv], le_refl v⟩

theorem recEdgesWith_mono (g : LockFile) (rfuel : Nat)
    (recN : String → List (String × Nat) → Option (List (String × Nat)))
    (hrec : ∀ j t t', recN j t = some t' → TallyLE t t')
    (l : List (String × NodeEdge)) :
    ∀ t t', recEdgesWith g rfuel recN l t = some t' → TallyLE t t' := by
  induction l with
  | nil =>
    intro t t' h
    simp only [recEdgesWith] at h
    cases h
    exact tallyLE_refl t
  | cons p rest ih =>
    intro t t' h
    obtain ⟨nm, e⟩ := p
    simp only [recEdgesWith] at h
    cases hr : resolveEdge g rfuel e with
    | none => simp only [hr] at h; exact Option.noConfusion h
    | some j =>
      simp only [hr] at h
      cases hn : recN j t with
      | none => simp only [hn] at h; exact Option.noConfusion h
      | some t2 =>
        simp only [hn] at h
        exact tallyLE_trans (hrec j t t2 hn) (ih t2 t' h)

theorem recurseInputs_mono (g : LockFile) (rfuel : Nat) :
    ∀ fuel idx t t', recurseInputs g rfuel fuel idx t = some t' → TallyLE t t' := by
  intro fuel
  induction fuel with
  | zero => intro idx t t' h; simp [recurseInputs] at h
  | succ fuel ih =>
    intro idx t t' h
    simp only [recurseInputs] at h
    cases hn : g.getNode idx with
    | none => rw [hn] at h; cases h
    | some node =>
      rw [hn] at h
      cases hb : bump t idx with
      | none => rw [hb] at h; cases h
      | some t1 =>
        rw [hb] at h
        exact tallyLE_trans (bump_tallyLE hb)
          (recEdgesWith_mono g rfuel _ (fun j s s' hs => ih j s s' hs) node.edges t1 t' h)

theorem countFromIndex_keys {g : LockFile} {rfuel fuel : Nat} {start : String}
    {tally : List (String × Nat)} (h : countFromIndex g rfuel fuel start = some tally) :
    tally.map Prod.fst = g.nodes.map Prod.fst := by
  simp only [countFromIndex] at h
  have := (recurseInputs_mono g rfuel fuel start _ tally h).1
  rw [this]
  simp

/-- Claim C4. A successful counting run returns a tally whose keys are
exactly the graph's node identifiers (zero-visit nodes included), and the
entry for the start identifier is at least one, because the start is bumped
before its edges are recursed into. -/
theorem claim4_tally_totality (g : LockFile) (rfuel fuel : Nat) (start : String)
    (tally : List (String × Nat)) (h : countFromIndex g rfuel fuel start = some tally) :
    tally.map Prod.fst = g.nodes.map Prod.fst ∧
    ∃ v, findEntry tally start = some v ∧ 1 ≤ v := by
  cases fuel with
  | zero => simp [countFromIndex, recurseInputs] at h
  | succ fuel =>
    simp only [countFromIndex, recurseInputs] at h
    cases hn : g.getNode start with
    | none => rw [hn] at h; cases h
    | some node =>
      rw [hn] at h
      cases hb : bump (g.nodes.map (fun p => (p.1, 0))) start with
      | none => rw [hb] at h; cases h
      | some t1 =>
        rw [hb] at h
        have hmono := recEdgesWith_mono g rfuel _
          (fun j s s' hs => recurseInputs_mono g rfuel fuel j s s' hs) node.edges t1 tally h
        constructor
        · rw [hmono.1, bump_keys hb]
          simp
        · obtain ⟨v0, hv1, hv2⟩ := bump_findEntry_self hb
          obtain ⟨v', hv', hle⟩ := hmono.2 start (v0 + 1) hv2
          exact ⟨v', hv', le_trans (Nat.le_add_left 1 v0) hle⟩

/-- Witness for claim C4: the scenario graph's counting run, where every
node is visited once. -/
theorem claim4_tally_totality_witness :
    countFromIndex scenarioGraph 10 10 "root" =
      some [("root", 1), ("n1", 1), ("n2", 1), ("n3", 1)] ∧
    ([("root", 1), ("n1", 1), ("n2", 1), ("n3", 1)].map Prod.fst =
      scenarioGraph.nodes.map Prod.fst ∧
    ∃ v, findEntry [("root", 1), ("n1", 1), ("n2", 1), ("n3", 1)] "root" = some v ∧ 1 ≤ v) :=
  ⟨by decide, claim4_tally_totality scenarioGraph 10 10 "root" _ (by decide)⟩

/-! ## Substitution structure lemmas -/

theorem setNode_rootIndex (g : LockFile) (id : String) (n : Node) :
    (g.setNode id n).rootIndex = g.rootIndex := rfl

theorem setNode_keys (g : LockFile) (id : String) (n : Node) :
    (g.setNode id n).nodes.map Prod.fst = g.nodes.map Prod.fst := by
  simp only [LockFile.setNode, List.map_map]
  apply List.map_congr_left
  intro p _
  by_cases hp : p.1 = id <;> simp [hp]

theorem setNode_getNode_ne (g : LockFile) (id id' : String) (n : Node) (h : id' ≠ id) :
    (g.setNode id n).getNode id' = g.getNode id' := by
  simp only [LockFile.setNode, LockFile.getNode]
  induction g.nodes with
  | nil => simp [findEntry]
  | cons p rest ih =>
    obtain ⟨k, v⟩ := p
    simp only [List.map_cons]
    by_cases hk : k = id
    · have h1 : k ≠ id' := by rw [hk]; exact fun he => h he.symm
      rw [if_pos hk]
      simp only [findEntry]
      rw [if_neg h1, if_neg h1, ih]
    · rw [if_neg hk]
      simp only [findEntry]
      by_cases hk' : k = id'
      · rw [if_pos hk', if_pos hk']
      · rw [if_neg hk', if_neg hk', ih]

theorem setNode_getNode_self (g : LockFile) (id : String) (n : Node) :
    (g.setNode id n).getNode id = (g.getNode id).map (fun _ => n) := by
  simp only [LockFile.setNode, LockFile.getNode]
  induction g.nodes with
  | nil => simp [findEntry]
  | cons p rest ih =>
    obtain ⟨k, v⟩ := p
    simp only [List.map_cons]
    by_cases hk : k = id
    · rw [if_pos hk]
      simp only [findEntry]
      rw [if_pos hk, if_pos hk]
      simp
    · rw [if_neg hk]
      simp only [findEntry]
      rw [if_neg hk, if_neg hk, ih]

theorem map_setNode_of_no_key {l : List (String × Node)} {id : String} {n : Node}
    (h : ∀ p ∈ l, p.1 ≠ id) :
    l.map (fun p => if p.1 = id then (p.1, n) else p) = l := by
  induction l with
  | nil => simp
  | cons p rest ih =>
    have hp : p.1 ≠ id := h p (List.mem_cons_self _ _)
    simp [hp, ih (fun q hq => h q (List.mem_cons_of_mem _ hq))]

theorem setNode_self {g : LockFile} {id : String} {n : Node}
    (hnd : (g.nodes.map Prod.fst).Nodup) (h : g.getNode id = some n) :
    g.setNode id n = g := by
  obtain ⟨nodes, rootIndex, version⟩ := g
  simp only [LockFile.setNode, LockFile.getNode] at *
  congr 1
  induction nodes with
  | nil => simp [findEntry] at h
  | cons p rest ih =>
    obtain ⟨k, v⟩ := p
    simp only [List.map_cons, List.nodup_cons] at hnd
    by_cases hk : k = id
    · subst hk
      simp only [findEntry, if_pos rfl] at h
      cases h
      have hrest : ∀ q ∈ rest, q.1 ≠ k := by
        intro q hq he
        exact hnd.1 (by rw [← he]; exact List.mem_map_of_mem Prod.fst hq)
      simp [map_setNode_of_no_key hrest]
    · simp only [findEntry, if_neg hk] at h
      simp [hk, ih hnd.2 h]

theorem substEdges_keys {g : LockFile} {root : Node} {ind : Bool} {rfuel : Nat}
    {l l' : List (String × NodeEdge)} (h : substEdges g root ind rfuel l = some l') :
    l'.map Prod.fst = l.map Prod.fst := by
  induction l generalizing l' with
  | nil => simp only [substEdges] at h; cases h; rfl
  | cons p rest ih =>
    obtain ⟨en, e⟩ := p
    simp only [substEdges] at h
    cases hrt : root.getEdge en with
    | some re =>
      simp only [hrt] at h
      cases hs : substEdges g root ind rfuel rest with
      | none => simp only [hs] at h; exact Option.noConfusion h
      | some rest1 =>
        simp only [hs] at h
        cases h
        simp [ih hs]
    | none =>
      simp only [hrt] at h
      cases hr : resolveEdge g rfuel e with
      | none => simp only [hr] at h; exact Option.noConfusion h
      | some j =>
        simp only [hr] at h
        cases hs : substEdges g root ind rfuel rest with
        | none => simp only [hs] at h; exact Option.noConfusion h
        | some rest1 =>
          simp only [hs] at h
          cases h
          simp [ih hs]

theorem substEdges_matched {g : LockFile} {root : Node} {ind : Bool} {rfuel : Nat}
    {l l' : List (String × NodeEdge)} (h : substEdges g root ind rfuel l = some l') :
    ∀ p ∈ l', ∀ re, root.getEdge p.1 = some re →
      p.2 = (if ind then re else .follows [p.1]) := by
  induction l generalizing l' with
  | nil =>
    simp only [substEdges] at h
    cases h
    simp
  | cons q rest ih =>
    obtain ⟨en, e⟩ := q
    simp only [substEdges] at h
    cases hrt : root.getEdge en with
    | some re0 =>
      simp only [hrt] at h
      cases hs : substEdges g root ind rfuel rest with
      | none => simp only [hs] at h; exact Option.noConfusion h
      | some rest1 =>
        simp only [hs] at h
        cases h
        intro p hp re hre
        rcases List.mem_cons.mp hp with hp1 | hp1
        · subst hp1
          simp only at hre
          rw [hrt] at hre
          cases hre
          rfl
        · exact ih hs p hp1 re hre
    | none =>
      simp only [hrt] at h
      cases hr : resolveEdge g rfuel e with
      | none => simp only [hr] at h; exact Option.noConfusion h
      | some j =>
        simp only [hr] at h
        cases hs : substEdges g root ind rfuel rest with
        | none => simp only [hs] at h; exact Option.noConfusion h
        | some rest1 =>
          simp only [hs] at h
          cases h
          intro p hp re hre
          rcases List.mem_cons.mp hp with hp1 | hp1
          · subst hp1
            simp only at hre
            rw [hrt] at hre
            exact Option.noConfusion hre
          · exact ih hs p hp1 re hre

theorem substEdges_id_of_matching_self {g : LockFile} {root : Node} {rfuel : Nat}
    {l : List (String × NodeEdge)} (h : ∀ p ∈ l, root.getEdge p.1 = some p.2) :
    substEdges g root true rfuel l = some l := by
  induction l with
  | nil => simp [substEdges]
  | cons p rest ih =>
    obtain ⟨en, e⟩ := p
    have he : root.getEdge en = some e := h (en, e) (List.mem_cons_self _ _)
    have hrest := ih (fun q hq => h q (List.mem_cons_of_mem _ hq))
    simp [substEdges, he, hrest]

theorem substituteNodeInputs_eq {g : LockFile} {node : Node} {ind : Bool} {rfuel : Nat}
    {node' : Node} (h : substituteNodeInputs g node ind rfuel = some node') :
    ∃ root edges1, g.getNode g.rootIndex = some root ∧
      substEdges g root ind rfuel node.edges = some edges1 ∧ node' = { edges := edges1 } := by
  simp only [substituteNodeInputs] at h
  cases hroot : g.getNode g.rootIndex with
  | none => simp only [hroot] at h; exact Option.noConfusion h
  | some root =>
    simp only [hroot] at h
    cases hs : substEdges g root ind rfuel node.edges with
    | none => simp only [hs] at h; exact Option.noConfusion h
    | some edges1 =>
      simp only [hs] at h
      cases h
      exact ⟨root, edges1, rfl, hs, rfl⟩

theorem substFold_spec (ind : Bool) (rfuel : Nat) :
    ∀ (L : List (String × String)) (g g' : LockFile),
    substFold ind rfuel L g = some g' →
    g'.rootIndex = g.rootIndex ∧
    g'.nodes.map Prod.fst = g.nodes.map Prod.fst ∧
    (∀ id, id ∉ L.map Prod.snd → g'.getNode id = g.getNode id) ∧
    (∀ id n', g'.getNode id = some n' → ∃ n, g.getNode id = some n ∧
      n'.edges.map Prod.fst = n.edges.map Prod.fst) := by
  intro L
  induction L with
  | nil =>
    intro g g' h
    simp only [substFold] at h
    cases h
    exact ⟨rfl, rfl, fun _ _ => rfl, fun id n' h' => ⟨n', h', rfl⟩⟩
  | cons q rest ih =>
    intro g g' h
    obtain ⟨nm, idx⟩ := q
    simp only [substFold] at h
    cases hin : g.getNode idx with
    | none => simp only [hin] at h; exact Option.noConfusion h
    | some input =>
      simp only [hin] at h
      cases hsub : substituteNodeInputs g input ind rfuel with
      | none => simp only [hsub] at h; exact Option.noConfusion h
      | some input1 =>
        simp only [hsub] at h
        obtain ⟨ih1, ih2, ih3, ih4⟩ := ih _ _ h
        obtain ⟨root0, edges1, _, hse, hinput1⟩ := substituteNodeInputs_eq hsub
        refine ⟨ih1.trans (setNode_rootIndex g idx input1), ?_, ?_, ?_⟩
        · exact ih2.trans (setNode_keys g idx input1)
        · intro id hid
          have hne : id ≠ idx := by
            intro he
            exact hid (by simp [he])
          have hrest : id ∉ rest.map Prod.snd := by
            intro hm
            exact hid (by simp [hm])
          rw [ih3 id hrest, setNode_getNode_ne g idx id input1 hne]
        · intro id n' hn'
          obtain ⟨nmid, hnmid, hkeys⟩ := ih4 id n' hn'
          by_cases hne : id = idx
          · subst hne
            rw [setNode_getNode_self, hin] at hnmid
            simp at hnmid
            subst hnmid
            refine ⟨input, hin, ?_⟩
            rw [hkeys, hinput1]
            exact substEdges_keys hse
          · rw [setNode_getNode_ne g idx id input1 hne] at hnmid
            exact ⟨nmid, hnmid, hkeys⟩

theorem goodKeys_setNode {g : LockFile} {id : String} {n : Node}
    (hg : GoodKeys g) (hn : (n.edges.map Prod.fst).Nodup) : GoodKeys (g.setNode id n) := by
  constructor
  · rw [setNode_keys]
    exact hg.1
  · intro p hp
    simp only [LockFile.setNode] at hp
    obtain ⟨q, hq, hpq⟩ := List.mem_map.mp hp
    by_cases hqid : q.1 = id
    · rw [if_pos hqid] at hpq
      rw [← hpq]
      exact hn
    · rw [if_neg hqid] at hpq
      rw [← hpq]
      exact hg.2 q hq

theorem substFold_goodKeys (ind : Bool) (rfuel : Nat) :
    ∀ (L : List (String × String)) (g g' : LockFile),
    substFold ind rfuel L g = some g' → GoodKeys g → GoodKeys g' := by
  intro L
  induction L with
  | nil =>
    intro g g' h hg
    simp only [substFold] at h
    cases h
    exact hg
  | cons q rest ih =>
    intro g g' h hg
    obtain ⟨nm, idx⟩ := q
    simp only [substFold] at h
    cases hin : g.getNode idx with
    | none => simp only [hin] at h; exact Option.noConfusion h
    | some input =>
      simp only [hin] at h
      cases hsub : substituteNodeInputs g input ind rfuel with
      | none => simp only [hsub] at h; exact Option.noConfusion h
      | some input1 =>
        simp only [hsub] at h
        obtain ⟨root0, edges1, hr0, hse, hinput1⟩ := substituteNodeInputs_eq hsub
        refine ih _ _ h (goodKeys_setNode hg ?_)
        rw [hinput1]
        have : edges1.map Prod.fst = input.edges.map Prod.fst := substEdges_keys hse
        rw [this]
        exact hg.2 (idx, input) (findEntry_mem hin)

theorem substFold_substituted_false (rfuel : Nat) :
    ∀ (L : List (String × String)) (g g' : LockFile),
    substFold false rfuel L g = some g' →
    ∀ id, id ∈ L.map Prod.snd → ∀ n', g'.getNode id = some n' →
    ∀ root', g'.getNode g'.rootIndex = some root' →
    ∀ p ∈ n'.edges, (root'.getEdge p.1).isSome = true → p.2 = .follows [p.1] := by
  intro L
  induction L with
  | nil =>
    intro g g' h id hid
    simp at hid
  | cons q rest ih =>
    intro g g' h id hid n' hn' root' hroot' p hp hmatch
    obtain ⟨nm, idx⟩ := q
    simp only [substFold] at h
    cases hin : g.getNode idx with
    | none => simp only [hin] at h; exact Option.noConfusion h
    | some input =>
      simp only [hin] at h
      cases hsub : substituteNodeInputs g input false rfuel with
      | none => simp only [hsub] at h; exact Option.noConfusion h
      | some input1 =>
        simp only [hsub] at h
        by_cases hidr : id ∈ rest.map Prod.snd
        · exact ih _ _ h id hidr n' hn' root' hroot' p hp hmatch
        · have hideq : id = idx := by
            simp only [List.map_cons, List.mem_cons] at hid
            rcases hid with hid | hid
            · exact hid
            · exact absurd hid hidr
          subst hideq
          obtain ⟨sp1, sp2, sp3, sp4⟩ := substFold_spec false rfuel rest _ _ h
          have hgm : g'.getNode id = (g.setNode id input1).getNode id := sp3 id hidr
          rw [setNode_getNode_self, hin] at hgm
          simp only [Option.map_some'] at hgm
          rw [hn'] at hgm
          have hne : n' = input1 := by
            injection hgm
          subst hne
          obtain ⟨root0, edges1, hr0, hse, hinput1⟩ := substituteNodeInputs_eq hsub
          have hri : g'.rootIndex = g.rootIndex := sp1.trans (setNode_rootIndex g id n')
          rw [hri] at hroot'
          obtain ⟨nmid, hnmid, hk⟩ := sp4 _ root' hroot'
          have hkeys : root'.edges.map Prod.fst = root0.edges.map Prod.fst := by
            by_cases hr : g.rootIndex = id
            · rw [hr, setNode_getNode_self, hin] at hnmid
              simp only [Option.map_some'] at hnmid
              have hni : n' = nmid := by injection hnmid
              have hroot0 : root0 = input := by
                rw [hr, hin] at hr0
                injection hr0 with hr0
                exact hr0.symm
              rw [hk, ← hni, hinput1]
              have h1 : edges1.map Prod.fst = input.edges.map Prod.fst := substEdges_keys hse
              rw [hroot0]
              exact h1
            · rw [setNode_getNode_ne g id g.rootIndex n' hr] at hnmid
              rw [hr0] at hnmid
              have : root0 = nmid := by injection hnmid
              rw [hk, ← this]
          have hmem : p.1 ∈ root0.edges.map Prod.fst := by
            rw [← hkeys]
            exact (findEntry_isSome root'.edges p.1).mp hmatch
          have hiso : (root0.getEdge p.1).isSome = true :=
            (findEntry_isSome root0.edges p.1).mpr hmem
          obtain ⟨re0, hre0⟩ := Option.isSome_iff_exists.mp hiso
          have hp1 : p ∈ edges1 := by
            rw [hinput1] at hp
            exact hp
          have := substEdges_matched hse p hp1 re0 hre0
          simpa using this

theorem substituteNodeInputs_edgeKeys {g : LockFile} {node : Node} {ind : Bool}
    {rfuel : Nat} {node' : Node} (h : substituteNodeInputs g node ind rfuel = some node') :
    node'.edges.map Prod.fst = node.edges.map Prod.fst := by
  obtain ⟨root0, edges1, _, hse, hnode'⟩ := substituteNodeInputs_eq h
  rw [hnode']
  exact substEdges_keys hse

theorem substStep_root_preserved {g : LockFile} {rfuel : Nat} {idx : String}
    {input input1 : Node} (hg : GoodKeys g) (hin : g.getNode idx = some input)
    (hsub : substituteNodeInputs g input true rfuel = some input1) :
    (g.setNode idx input1).getNode g.rootIndex = g.getNode g.rootIndex := by
  by_cases hr : g.rootIndex = idx
  · obtain ⟨root0, edges1, hr0, hse, hinput1⟩ := substituteNodeInputs_eq hsub
    have hroot0 : root0 = input := by
      rw [hr, hin] at hr0
      injection hr0 with hr0
      exact hr0.symm
    have hndedges : (input.edges.map Prod.fst).Nodup :=
      hg.2 (idx, input) (findEntry_mem hin)
    have hid := @substEdges_id_of_matching_self g input rfuel input.edges
      (fun p hp => mem_findEntry hndedges hp)
    rw [hroot0, hid] at hse
    have hedges : edges1 = input.edges := by
      injection hse with hse
      exact hse.symm
    have hinput : input1 = input := by
      rw [hinput1, hedges]
    rw [hr, setNode_getNode_self, hin, hinput]
    rfl
  · exact setNode_getNode_ne g idx g.rootIndex input1 hr

theorem substFold_root_constant (rfuel : Nat) :
    ∀ (L : List (String × String)) (g g' : LockFile),
    substFold true rfuel L g = some g' → GoodKeys g →
    g'.getNode g'.rootIndex = g.getNode g.rootIndex := by
  intro L
  induction L with
  | nil =>
    intro g g' h _
    simp only [substFold] at h
    cases h
    rfl
  | cons q rest ih =>
    intro g g' h hg
    obtain ⟨nm, idx⟩ := q
    simp only [substFold] at h
    cases hin : g.getNode idx with
    | none => simp only [hin] at h; exact Option.noConfusion h
    | some input =>
      simp only [hin] at h
      cases hsub : substituteNodeInputs g input true rfuel with
      | none => simp only [hsub] at h; exact Option.noConfusion h
      | some input1 =>
        simp only [hsub] at h
        have hgood : GoodKeys (g.setNode idx input1) := by
          refine goodKeys_setNode hg ?_
          rw [substituteNodeInputs_edgeKeys hsub]
          exact hg.2 (idx, input) (findEntry_mem hin)
        have hmid := ih _ _ h hgood
        rw [hmid, setNode_rootIndex]
        exact substStep_root_preserved hg hin hsub

theorem substFold_substituted_true (rfuel : Nat) :
    ∀ (L : List (String × String)) (g g' : LockFile),
    substFold true rfuel L g = some g' → GoodKeys g →
    ∀ root0, g.getNode g.rootIndex = some root0 →
    ∀ id, id ∈ L.map Prod.snd → ∀ n', g'.getNode id = some n' →
    ∀ p ∈ n'.edges, ∀ re, root0.getEdge p.1 = some re → p.2 = re := by
  intro L
  induction L with
  | nil =>
    intro g g' h _ root0 _ id hid
    simp at hid
  | cons q rest ih =>
    intro g g' h hg root0 hroot0 id hid n' hn' p hp re hre
    obtain ⟨nm, idx⟩ := q
    simp only [substFold] at h
    cases hin : g.getNode idx with
    | none => simp only [hin] at h; exact Option.noConfusion h
    | some input =>
      simp only [hin] at h
      cases hsub : substituteNodeInputs g input true rfuel with
      | none => simp only [hsub] at h; exact Option.noConfusion h
      | some input1 =>
        simp only [hsub] at h
        have hgood : GoodKeys (g.setNode idx input1) := by
          refine goodKeys_setNode hg ?_
          rw [substituteNodeInputs_edgeKeys hsub]
          exact hg.2 (idx, input) (findEntry_mem hin)
        by_cases hidr : id ∈ rest.map Prod.snd
        · have hmidroot : (g.setNode idx input1).getNode (g.setNode idx input1).rootIndex =
              some root0 := by
            rw [setNode_rootIndex, substStep_root_preserved hg hin hsub]
            exact hroot0
          exact ih _ _ h hgood root0 hmidroot id hidr n' hn' p hp re hre
        · have hideq : id = idx := by
            simp only [List.map_cons, List.mem_cons] at hid
            rcases hid with hid | hid
            · exact hid
            · exact absurd hid hidr
          subst hideq
          obtain ⟨sp1, sp2, sp3, sp4⟩ := substFold_spec true rfuel rest _ _ h
          have hgm : g'.getNode id = (g.setNode id input1).getNode id := sp3 id hidr
          rw [setNode_getNode_self, hin] at hgm
          simp only [Option.map_some'] at hgm
          rw [hn'] at hgm
          have hne : n' = input1 := by injection hgm
          obtain ⟨root1, edges1, hr1, hse, hinput1⟩ := substituteNodeInputs_eq hsub
          have hrr : root1 = root0 := by
            rw [hroot0] at hr1
            injection hr1 with hr1
            exact hr1.symm
          have hp1 : p ∈ edges1 := by
            rw [hne, hinput1] at hp
            exact hp
          have := substEdges_matched hse p hp1 re (by rw [hrr]; exact hre)
          simpa using this

theorem substituteFlakeInputs_eq {g : LockFile} {ind : Bool} {rfuel : Nat} {g' : LockFile}
    (h : substituteFlakeInputs g ind rfuel = some g') :
    ∃ root, g.getNode g.rootIndex = some root ∧
      substFold ind rfuel (rootIndexedInputs root) g = some g' := by
  simp only [substituteFlakeInputs] at h
  cases hroot : g.getNode g.rootIndex with
  | none => simp only [hroot] at h; exact Option.noConfusion h
  | some root =>
    simp only [hroot] at h
    exact ⟨root, rfl, h⟩

/-! ## Claim C2: scope of the substitution rewrite -/

/-- Counterexample to claim C2 as stated. In the grandchild graph the node nB
is reachable from the root (root resolves input a to nA, nA resolves input b
to nB) and nB has an edge named a, matching the root input a; yet after
substitute_flake_inputs_with_follows runs, that edge still holds its original
index nC — it has been redirected neither to a follows of a nor to the root's
own edge for a. -/
theorem claim2_transitive_rewrite_counterexample :
    substituteFlakeInputs grandchildGraph false 10 = some grandchildGraph ∧
    Reaches grandchildGraph "root" "nB" ∧
    grandchildGraph.rootIndex = "root" ∧
    grandchildGraph.getNode "root" = some { edges := [("a", NodeEdge.indexed "nA")] } ∧
    grandchildGraph.getNode "nB" = some { edges := [("a", NodeEdge.indexed "nC")] } ∧
    NodeEdge.indexed "nC" ≠ NodeEdge.follows ["a"] ∧
    NodeEdge.indexed "nC" ≠ NodeEdge.indexed "nA" := by
  refine ⟨by decide, ?_, by decide, by decide, by decide, by decide, by decide⟩
  have h1 : Reaches grandchildGraph "root" "nA" :=
    @Reaches.step grandchildGraph "root" "root" "nA"
      { edges := [("a", NodeEdge.indexed "nA")] }
      ("a", NodeEdge.indexed "nA") 1 Reaches.refl
      (by decide) (by decide) (by decide)
  exact @Reaches.step grandchildGraph "root" "nA" "nB"
    { edges := [("b", NodeEdge.indexed "nB")] }
    ("b", NodeEdge.indexed "nB") 1 h1
    (by decide) (by decide) (by decide)

/-- Claim C2, amended: the rewrite is not transitive. Substitution rewrites
exactly the nodes directly referenced by an indexed root edge: every other
node is byte-for-byte unchanged, and each rewritten node has each edge whose
name matches a root edge name redirected (to a one-hop follows of that name,
or to the root's own edge in indexed mode). -/
theorem claim2_substitution_only_direct_inputs
    (g g' : LockFile) (ind : Bool) (rfuel : Nat) (root : Node)
    (hg : GoodKeys g)
    (hroot : g.getNode g.rootIndex = some root)
    (h : substituteFlakeInputs g ind rfuel = some g') :
    (∀ id, id ∉ (rootIndexedInputs root).map Prod.snd → g'.getNode id = g.getNode id) ∧
    (∀ id, id ∈ (rootIndexedInputs root).map Prod.snd → ∀ n', g'.getNode id = some n' →
      ∀ root', g'.getNode g'.rootIndex = some root' →
      ∀ p ∈ n'.edges, ∀ re, root'.getEdge p.1 = some re →
        p.2 = (if ind then re else NodeEdge.follows [p.1])) := by
  obtain ⟨root1, hroot1, hfold⟩ := substituteFlakeInputs_eq h
  have hrr : root1 = root := by
    rw [hroot] at hroot1
    injection hroot1 with hroot1
    exact hroot1.symm
  subst hrr
  constructor
  · exact (substFold_spec ind rfuel _ _ _ hfold).2.2.1
  · intro id hid n' hn' root' hroot' p hp re hre
    cases ind with
    | false =>
      have := substFold_substituted_false rfuel _ _ _ hfold id hid n' hn' root' hroot'
        p hp (by rw [hre]; rfl)
      simpa using this
    | true =>
      have hconst := substFold_root_constant rfuel _ _ _ hfold hg
      have hrr' : root' = root1 := by
        rw [hconst, hroot] at hroot'
        injection hroot' with hroot'
        exact hroot'.symm
      subst hrr'
      have := substFold_substituted_true rfuel _ _ _ hfold hg _ hroot
        id hid n' hn' p hp re hre
      simpa using this

/-- Witness for the amended claim C2: the grandchild graph, whose only
rewrite target is nA. -/
theorem claim2_substitution_only_direct_inputs_witness :
    ((grandchildGraph.nodes.map Prod.fst).Nodup ∧
      ∀ p ∈ grandchildGraph.nodes, (p.2.edges.map Prod.fst).Nodup) ∧
    grandchildGraph.getNode grandchildGraph.rootIndex =
      some { edges := [("a", NodeEdge.indexed "nA")] } ∧
    substituteFlakeInputs grandchildGraph false 10 = some grandchildGraph ∧
    ((∀ id, id ∉ (rootIndexedInputs
        { edges := [("a", NodeEdge.indexed "nA")] }).map Prod.snd →
      grandchildGraph.getNode id = grandchildGraph.getNode id) ∧
    (∀ id, id ∈ (rootIndexedInputs
        { edges := [("a", NodeEdge.indexed "nA")] }).map Prod.snd →
      ∀ n', grandchildGraph.getNode id = some n' →
      ∀ root', grandchildGraph.getNode grandchildGraph.rootIndex = some root' →
      ∀ p ∈ n'.edges, ∀ re, root'.getEdge p.1 = some re →
        p.2 = (if false then re else NodeEdge.follows [p.1]))) := by
  refine ⟨⟨by decide, by decide⟩, by decide, by decide, ?_⟩
  exact claim2_substitution_only_direct_inputs grandchildGraph grandchildGraph false 10
    { edges := [("a", NodeEdge.indexed "nA")] } ⟨by decide, by decide⟩ (by decide) (by decide)

/-! ## Claim C9: the manifest patch frame -/

theorem isPrefixOf_append_self (l rest : List Char) : l.isPrefixOf (l ++ rest) = true := by
  induction l with
  | nil => simp [List.isPrefixOf]
  | cons c cs ih => simp [List.isPrefixOf, ih]

theorem findSub_eq {l pat : List Char} {j : Nat}
    (hj : pat.isPrefixOf (l.drop j) = true)
    (hmin : ∀ k, k < j → ¬ pat.isPrefixOf (l.drop k) = true) :
    ∀ i, findSub l pat i = some (i + j) := by
  induction j generalizing l with
  | zero =>
    intro i
    simp only [List.drop_zero] at hj
    rw [findSub.eq_def]
    simp [hj]
  | succ j ih =>
    intro i
    have h0 : ¬ pat.isPrefixOf l = true := by
      have := hmin 0 (Nat.succ_pos j)
      simpa using this
    cases l with
    | nil =>
      simp only [List.drop_nil] at hj
      have : pat.isPrefixOf ([] : List Char) = true := hj
      exact absurd this h0
    | cons c rest =>
      have hj' : pat.isPrefixOf (rest.drop j) = true := by
        simpa using hj
      have hmin' : ∀ k, k < j → ¬ pat.isPrefixOf (rest.drop k) = true := by
        intro k hk
        have := hmin (k + 1) (Nat.succ_lt_succ hk)
        simpa using this
      rw [findSub.eq_def]
      simp only [if_neg h0]
      rw [ih hj' hmin' (i + 1)]
      congr 1
      omega

theorem rfindChar_no_occ {l : List Char} {c : Char} (h : c ∉ l) :
    ∀ acc i, rfindChar l c acc i = acc := by
  induction l with
  | nil => intro acc i; rfl
  | cons x rest ih =>
    intro acc i
    have hx : x ≠ c := fun he => h (he ▸ List.mem_cons_self x rest)
    simp only [rfindChar, if_neg hx]
    exact ih (fun hm => h (List.mem_cons_of_mem x hm)) acc (i + 1)

theorem rfindChar_append (X Y : List Char) (c : Char) :
    ∀ acc i, rfindChar (X ++ Y) c acc i = rfindChar Y c (rfindChar X c acc i) (i + X.length) := by
  induction X with
  | nil =>
    intro acc i
    simp only [List.nil_append, rfindChar, List.length_nil, Nat.add_zero]
  | cons x rest ih =>
    intro acc i
    simp only [List.cons_append, rfindChar, List.append_eq]
    rw [ih]
    congr 1
    simp only [List.length_cons]
    omega

theorem rfindChar_last_newline (X Y : List Char) (h : '\n' ∉ Y) :
    rfindChar (X ++ '\n' :: Y) '\n' none 0 = some X.length := by
  rw [rfindChar_append]
  simp only [rfindChar, if_pos rfl]
  rw [rfindChar_no_occ h]
  simp

/-- Claim C9. For a manifest decomposed around the first occurrences of the
two markers, the patch replaces exactly the region from the start of the
marker line through the end of the end marker: the text before that line and
the text after the end marker survive byte for byte, and every line of the
generated block is prefixed with exactly the indentation that preceded the
start marker on its line. -/
theorem claim9_manifest_patch_frame (A0 ind B C config : List Char)
    (hA0 : A0 = [] ∨ ∃ A1, A0 = A1 ++ ['\n'])
    (hind : '\n' ∉ ind)
    (hS : ∀ k, k < (A0 ++ ind).length →
      ¬ startMarker.isPrefixOf ((A0 ++ ind ++ startMarker ++ B ++ endMarker ++ C).drop k) = true)
    (hE : ∀ k, k < (A0 ++ ind ++ startMarker ++ B).length →
      ¬ endMarker.isPrefixOf ((A0 ++ ind ++ startMarker ++ B ++ endMarker ++ C).drop k) = true) :
    updateFlakeNix (A0 ++ ind ++ startMarker ++ B ++ endMarker ++ C) config =
      some (A0 ++ List.intercalate ['\n'] ((rustLines config).map (fun ln => ind ++ ln)) ++ C) := by
  have hre1 : A0 ++ ind ++ startMarker ++ B ++ endMarker ++ C =
      (A0 ++ ind) ++ (startMarker ++ B ++ endMarker ++ C) := by
    simp [List.append_assoc]
  have hdropS : (A0 ++ ind ++ startMarker ++ B ++ endMarker ++ C).drop (A0 ++ ind).length =
      startMarker ++ B ++ endMarker ++ C := by
    rw [hre1, List.drop_left]
  have hfS : findSub (A0 ++ ind ++ startMarker ++ B ++ endMarker ++ C) startMarker 0 =
      some (0 + (A0 ++ ind).length) := by
    refine findSub_eq ?_ hS 0
    rw [hdropS]
    have : startMarker ++ B ++ endMarker ++ C = startMarker ++ (B ++ endMarker ++ C) := by
      simp [List.append_assoc]
    rw [this]
    exact isPrefixOf_append_self _ _
  have hre2 : A0 ++ ind ++ startMarker ++ B ++ endMarker ++ C =
      (A0 ++ ind ++ startMarker ++ B) ++ (endMarker ++ C) := by
    simp [List.append_assoc]
  have hdropE : (A0 ++ ind ++ startMarker ++ B ++ endMarker ++ C).drop
      (A0 ++ ind ++ startMarker ++ B).length = endMarker ++ C := by
    rw [hre2, List.drop_left]
  have hfE : findSub (A0 ++ ind ++ startMarker ++ B ++ endMarker ++ C) endMarker 0 =
      some (0 + (A0 ++ ind ++ startMarker ++ B).length) := by
    refine findSub_eq ?_ hE 0
    rw [hdropE]
    exact isPrefixOf_append_self _ _
  have hlenS : (0:Nat) < startMarker.length := by decide
  simp only [updateFlakeNix, hfS, hfE]
  have hlt : ¬ ((0 + (A0 ++ ind ++ startMarker ++ B).length) ≤ 0 + (A0 ++ ind).length) := by
    simp only [List.length_append]
    omega
  rw [if_neg hlt]
  have htakeS : (A0 ++ ind ++ startMarker ++ B ++ endMarker ++ C).take
      (0 + (A0 ++ ind).length) = A0 ++ ind := by
    rw [Nat.zero_add, hre1, List.take_left]
  rw [htakeS]
  have hdropEnd : (A0 ++ ind ++ startMarker ++ B ++ endMarker ++ C).drop
      (0 + (A0 ++ ind ++ startMarker ++ B).length + endMarker.length) = C := by
    have hre3 : A0 ++ ind ++ startMarker ++ B ++ endMarker ++ C =
        (A0 ++ ind ++ startMarker ++ B ++ endMarker) ++ C := by
      simp [List.append_assoc]
    have hlen : 0 + (A0 ++ ind ++ startMarker ++ B).length + endMarker.length =
        (A0 ++ ind ++ startMarker ++ B ++ endMarker).length := by
      simp only [List.length_append]
      omega
    rw [hlen, hre3, List.drop_left]
  rw [hdropEnd]
  rcases hA0 with hA0 | ⟨A1, hA1⟩
  · subst hA0
    simp only [List.nil_append, rfindChar_no_occ hind, List.take_zero, List.drop_zero]
  · subst hA1
    have hrf : rfindChar (A1 ++ ['\n'] ++ ind) '\n' none 0 = some A1.length := by
      have he : A1 ++ ['\n'] ++ ind = A1 ++ '\n' :: ind := by simp
      rw [he]
      exact rfindChar_last_newline A1 ind hind
    simp only [hrf]
    have htake1 : List.take (A1.length + 1)
        (A1 ++ ['\n'] ++ ind ++ startMarker ++ B ++ endMarker ++ C) = A1 ++ ['\n'] := by
      have hre4 : A1 ++ ['\n'] ++ ind ++ startMarker ++ B ++ endMarker ++ C =
          (A1 ++ ['\n']) ++ (ind ++ startMarker ++ B ++ endMarker ++ C) := by
        simp [List.append_assoc]
      have hlen : A1.length + 1 = (A1 ++ ['\n']).length := by simp
      rw [hlen, hre4, List.take_left]
    have hdrop1 : List.drop (A1.length + 1) (A1 ++ ['\n'] ++ ind) = ind := by
      have hlen : A1.length + 1 = (A1 ++ ['\n']).length := by simp
      rw [hlen, List.drop_left]
    rw [htake1, hdrop1]

/-- Witness for claim C9: a manifest with 2-space-indented markers; the
replacement block is indented by exactly two spaces and the bytes before the
marker line and after the end marker are unchanged. -/
theorem claim9_manifest_patch_frame_witness :
    ("x = 1;\n".data = [] ∨ ∃ A1, "x = 1;\n".data = A1 ++ ['\n']) ∧
    '\n' ∉ "  ".data ∧
    updateFlakeNix ("x = 1;\n".data ++ "  ".data ++ startMarker ++ "\n  old\n  ".data ++
        endMarker ++ "\ny".data) "# NEW\nline2".data =
      some ("x = 1;\n".data ++ List.intercalate ['\n']
        ((rustLines "# NEW\nline2".data).map (fun ln => "  ".data ++ ln)) ++ "\ny".data) :=
  ⟨Or.inr ⟨"x = 1;".data, by decide⟩, by decide,
    claim9_manifest_patch_frame "x = 1;\n".data "  ".data "\n  old\n  ".data "\ny".data
      "# NEW\nline2".data (Or.inr ⟨"x = 1;".data, by decide⟩) (by decide)
      (by decide) (by decide)⟩

/-! ## Resolution monotonicity and determinism -/

theorem walkWith_mono {g : LockFile} {res res' : NodeEdge → Option String}
    (hres : ∀ e j, res e = some j → res' e = some j) :
    ∀ p cur j, walkWith g res cur p = some j → walkWith g res' cur p = some j := by
  intro p
  induction p with
  | nil =>
    intro cur j h
    simpa [walkWith] using h
  | cons name rest ih =>
    intro cur j h
    simp only [walkWith] at h ⊢
    cases hn : g.getNode cur with
    | none => simp only [hn] at h; exact Option.noConfusion h
    | some node =>
      simp only [hn] at h ⊢
      cases he : node.getEdge name with
      | none => simp only [he] at h; exact Option.noConfusion h
      | some e =>
        simp only [he] at h ⊢
        cases hr : res e with
        | none => simp only [hr] at h; exact Option.noConfusion h
        | some next =>
          simp only [hr] at h
          rw [hres e next hr]
          exact ih next j h

theorem resolveEdge_mono (g : LockFile) :
    ∀ f f', f ≤ f' → ∀ e j, resolveEdge g f e = some j → resolveEdge g f' e = some j := by
  intro f
  induction f with
  | zero =>
    intro f' _ e j h
    simp [resolveEdge] at h
  | succ f ih =>
    intro f' hff e j h
    cases f' with
    | zero => omega
    | succ f1 =>
      have hf1 : f ≤ f1 := Nat.le_of_succ_le_succ hff
      cases e with
      | indexed id =>
        simpa [resolveEdge] using h
      | follows path =>
        simp only [resolveEdge] at h ⊢
        exact walkWith_mono (fun e' j' h' => ih f1 hf1 e' j' h') path g.rootIndex j h

theorem resolveEdge_det {g : LockFile} {f f' : Nat} {e : NodeEdge} {a b : String}
    (ha : resolveEdge g f e = some a) (hb : resolveEdge g f' e = some b) : a = b := by
  have h1 := resolveEdge_mono g f (max f f') (le_max_left f f') e a ha
  have h2 := resolveEdge_mono g f' (max f f') (le_max_right f f') e b hb
  rw [h1] at h2
  exact Option.some.inj h2

/-! ## Closure of the visited set of a counting run -/

theorem tallyPos_mono {t t' : List (String × Nat)} {id : String}
    (h : tallyPos t id) (hle : TallyLE t t') : tallyPos t' id := by
  obtain ⟨v, hv, hv1⟩ := h
  obtain ⟨v', hv', hle'⟩ := hle.2 id v hv
  exact ⟨v', hv', le_trans hv1 hle'⟩

theorem closedAt_mono {g : LockFile} {rfuel : Nat} {t t' : List (String × Nat)} {id : String}
    (h : ClosedAt g rfuel t id) (hle : TallyLE t t') : ClosedAt g rfuel t' id := by
  obtain ⟨n, hn, he⟩ := h
  refine ⟨n, hn, fun p hp => ?_⟩
  obtain ⟨j, hj, hjp⟩ := he p hp
  exact ⟨j, hj, tallyPos_mono hjp hle⟩

theorem recurseInputs_pos {g : LockFile} {rfuel fuel : Nat} {idx : String}
    {t t' : List (String × Nat)} (h : recurseInputs g rfuel fuel idx t = some t') :
    tallyPos t' idx := by
  cases fuel with
  | zero => simp [recurseInputs] at h
  | succ fuel =>
    simp only [recurseInputs] at h
    cases hn : g.getNode idx with
    | none => simp only [hn] at h; exact Option.noConfusion h
    | some node =>
      simp only [hn] at h
      cases hb : bump t idx with
      | none => simp only [hb] at h; exact Option.noConfusion h
      | some t1 =>
        simp only [hb] at h
        obtain ⟨v, hv1, hv2⟩ := bump_findEntry_self hb
        have hmono := recEdgesWith_mono g rfuel _
          (fun j s s' hs => recurseInputs_mono g rfuel fuel j s s' hs) node.edges t1 t' h
        exact tallyPos_mono ⟨v + 1, hv2, by omega⟩ hmono

theorem findEntry_map_const {α β : Type} (l : List (String × α)) (c : β) (id : String) :
    findEntry (l.map (fun p => (p.1, c))) id = (findEntry l id).map (fun _ => c) := by
  induction l with
  | nil => simp [findEntry]
  | cons p rest ih =>
    obtain ⟨k, v⟩ := p
    by_cases hk : k = id
    · subst hk
      simp [findEntry]
    · simp only [List.map_cons, findEntry, if_neg hk]
      exact ih

theorem recEdgesWith_closed (g : LockFile) (rfuel : Nat)
    (recN : String → List (String × Nat) → Option (List (String × Nat)))
    (hmono : ∀ j t t', recN j t = some t' → TallyLE t t')
    (hpos : ∀ j t t', recN j t = some t' → tallyPos t' j)
    (hclosed : ∀ j t t', recN j t = some t' →
      ∀ id a b, findEntry t id = some a → findEntry t' id = some b → a < b →
        ClosedAt g rfuel t' id) :
    ∀ l t t', recEdgesWith g rfuel recN l t = some t' →
      (∀ id a b, findEntry t id = some a → findEntry t' id = some b → a < b →
        ClosedAt g rfuel t' id) ∧
      (∀ q ∈ l, ∃ j, resolveEdge g rfuel q.2 = some j ∧ tallyPos t' j) := by
  intro l
  induction l with
  | nil =>
    intro t t' h
    simp only [recEdgesWith] at h
    cases h
    constructor
    · intro id a b ha hb hab
      rw [ha] at hb
      injection hb with hb
      omega
    · intro q hq
      simp at hq
  | cons q0 rest ih =>
    intro t t' h
    obtain ⟨nm, e⟩ := q0
    simp only [recEdgesWith] at h
    cases hr : resolveEdge g rfuel e with
    | none => simp only [hr] at h; exact Option.noConfusion h
    | some j =>
      simp only [hr] at h
      cases hn : recN j t with
      | none => simp only [hn] at h; exact Option.noConfusion h
      | some t2 =>
        simp only [hn] at h
        have hle2 : TallyLE t t2 := hmono j t t2 hn
        have hle' : TallyLE t2 t' :=
          recEdgesWith_mono g rfuel recN hmono rest t2 t' h
        obtain ⟨ihA, ihB⟩ := ih t2 t' h
        constructor
        · intro id a b ha hb hab
          obtain ⟨c, hc, hac⟩ := hle2.2 id a ha
          by_cases hlt : a < c
          · exact closedAt_mono (hclosed j t t2 hn id a c ha hc hlt) hle'
          · have hacn : a = c := le_antisymm hac (not_lt.mp hlt)
            subst hacn
            exact ihA id a b hc hb hab
        · intro q hq
          rcases List.mem_cons.mp hq with hq1 | hq1
          · subst hq1
            exact ⟨j, hr, tallyPos_mono (hpos j t t2 hn) hle'⟩
          · exact ihB q hq1

theorem recurseInputs_closed (g : LockFile) (rfuel : Nat) :
    ∀ fuel idx t t', recurseInputs g rfuel fuel idx t = some t' →
      ∀ id a b, findEntry t id = some a → findEntry t' id = some b → a < b →
        ClosedAt g rfuel t' id := by
  intro fuel
  induction fuel with
  | zero =>
    intro idx t t' h
    simp [recurseInputs] at h
  | succ fuel ih =>
    intro idx t t' h
    simp only [recurseInputs] at h
    cases hn : g.getNode idx with
    | none => simp only [hn] at h; exact Option.noConfusion h
    | some node =>
      simp only [hn] at h
      cases hb : bump t idx with
      | none => simp only [hb] at h; exact Option.noConfusion h
      | some t1 =>
        simp only [hb] at h
        have hedge := recEdgesWith_closed g rfuel _
          (fun j s s' hs => recurseInputs_mono g rfuel fuel j s s' hs)
          (fun j s s' hs => recurseInputs_pos hs)
          (fun j s s' hs => ih j s s' hs)
          node.edges t1 t' h
        intro id a b ha hbb hab
        by_cases hid : id = idx
        · subst hid
          exact ⟨node, hn, fun p hp => hedge.2 p hp⟩
        · have ht1 : findEntry t1 id = findEntry t id := bump_findEntry_other hb hid
          rw [← ht1] at ha
          exact hedge.1 id a b ha hbb hab

theorem countFromIndex_closed {g : LockFile} {rfuel fuel : Nat} {start : String}
    {tally : List (String × Nat)} (h : countFromIndex g rfuel fuel start = some tally) :
    ∀ id, tallyPos tally id → ClosedAt g rfuel tally id := by
  intro id hpos
  obtain ⟨v, hv, hv1⟩ := hpos
  have hkeys : tally.map Prod.fst = g.nodes.map Prod.fst :=
    countFromIndex_keys h
  have hmem : id ∈ (g.nodes.map (fun p => (p.1, 0)) : List (String × Nat)).map Prod.fst := by
    have : id ∈ tally.map Prod.fst :=
      (findEntry_isSome tally id).mp (by rw [hv]; rfl)
    rw [hkeys] at this
    simpa using this
  have hinit : findEntry (g.nodes.map (fun p => (p.1, 0))) id = some 0 := by
    have hiso := (findEntry_isSome (g.nodes.map (fun p => (p.1, 0))) id).mpr hmem
    rw [findEntry_map_const] at hiso ⊢
    obtain ⟨n0, hn0⟩ := Option.isSome_iff_exists.mp hiso
    cases ho : findEntry g.nodes id with
    | none => rw [ho] at hn0; exact Option.noConfusion hn0
    | some w => simp
  exact recurseInputs_closed g rfuel fuel start _ tally h id 0 v hinit hv hv1

/-! ## Reachability of visited nodes -/

theorem recEdgesWith_reaches (g : LockFile) (rfuel : Nat) (start : String)
    (recN : String → List (String × Nat) → Option (List (String × Nat)))
    (hmono : ∀ j t t', recN j t = some t' → TallyLE t t')
    (hreach : ∀ j t t', recN j t = some t' → Reaches g start j →
      ∀ id a b, findEntry t id = some a → findEntry t' id = some b → a < b →
        Reaches g start id) :
    ∀ l t t' i n, recEdgesWith g rfuel recN l t = some t' →
      g.getNode i = some n → (∀ q ∈ l, q ∈ n.edges) → Reaches g start i →
      ∀ id a b, findEntry t id = some a → findEntry t' id = some b → a < b →
        Reaches g start id := by
  intro l
  induction l with
  | nil =>
    intro t t' i n h _ _ _ id a b ha hb hab
    simp only [recEdgesWith] at h
    cases h
    rw [ha] at hb
    injection hb with hb
    omega
  | cons q0 rest ih =>
    intro t t' i n h hgn hsub hi id a b ha hb hab
    obtain ⟨nm, e⟩ := q0
    simp only [recEdgesWith] at h
    cases hr : resolveEdge g rfuel e with
    | none => simp only [hr] at h; exact Option.noConfusion h
    | some j =>
      simp only [hr] at h
      cases hn : recN j t with
      | none => simp only [hn] at h; exact Option.noConfusion h
      | some t2 =>
        simp only [hn] at h
        have hreachj : Reaches g start j :=
          Reaches.step hi hgn
            (hsub (nm, e) (List.mem_cons_self _ _)) hr
        obtain ⟨c, hc, hac⟩ := (hmono j t t2 hn).2 id a ha
        by_cases hlt : a < c
        · exact hreach j t t2 hn hreachj id a c ha hc hlt
        · have hacn : a = c := le_antisymm hac (not_lt.mp hlt)
          subst hacn
          exact ih t2 t' i n h hgn (fun q hq => hsub q (List.mem_cons_of_mem _ hq)) hi
            id a b hc hb hab

theorem recurseInputs_reaches (g : LockFile) (rfuel : Nat) (start : String) :
    ∀ fuel idx t t', recurseInputs g rfuel fuel idx t = some t' → Reaches g start idx →
      ∀ id a b, findEntry t id = some a → findEntry t' id = some b → a < b →
        Reaches g start id := by
  intro fuel
  induction fuel with
  | zero =>
    intro idx t t' h
    simp [recurseInputs] at h
  | succ fuel ih =>
    intro idx t t' h hidx id a b ha hb hab
    simp only [recurseInputs] at h
    cases hn : g.getNode idx with
    | none => simp only [hn] at h; exact Option.noConfusion h
    | some node =>
      simp only [hn] at h
      cases hbp : bump t idx with
      | none => simp only [hbp] at h; exact Option.noConfusion h
      | some t1 =>
        simp only [hbp] at h
        by_cases hid : id = idx
        · subst hid
          exact hidx
        · have ht1 : findEntry t1 id = findEntry t id := bump_findEntry_other hbp hid
          rw [← ht1] at ha
          exact recEdgesWith_reaches g rfuel start _
            (fun j s s' hs => recurseInputs_mono g rfuel fuel j s s' hs)
            (fun j s s' hs => ih j s s' hs)
            node.edges t1 t' idx node h hn (fun q hq => hq) hidx id a b ha hb hab

theorem countFromIndex_reaches {g : LockFile} {rfuel fuel : Nat} {start : String}
    {tally : List (String × Nat)} (h : countFromIndex g rfuel fuel start = some tally) :
    ∀ id, tallyPos tally id → Reaches g start id := by
  intro id hpos
  obtain ⟨v, hv, hv1⟩ := hpos
  have hkeys : tally.map Prod.fst = g.nodes.map Prod.fst := countFromIndex_keys h
  have hmem : id ∈ (g.nodes.map (fun p => (p.1, 0)) : List (String × Nat)).map Prod.fst := by
    have : id ∈ tally.map Prod.fst :=
      (findEntry_isSome tally id).mp (by rw [hv]; rfl)
    rw [hkeys] at this
    simpa using this
  have hinit : findEntry (g.nodes.map (fun p => (p.1, 0))) id = some 0 := by
    have hiso := (findEntry_isSome (g.nodes.map (fun p => (p.1, 0))) id).mpr hmem
    rw [findEntry_map_const] at hiso ⊢
    cases ho : findEntry g.nodes id with
    | none => rw [ho] at hiso; exact Bool.noConfusion hiso
    | some w => simp
  simp only [countFromIndex] at h
  exact recurseInputs_reaches g rfuel start fuel start _ tally h Reaches.refl id 0 v hinit hv hv1

/-! ## Shape of the pruned graph -/

theorem removeNode_getNode (g : LockFile) (d id : String) :
    (g.removeNode d).getNode id = if id = d then none else g.getNode id := by
  simp only [LockFile.removeNode, LockFile.getNode]
  induction g.nodes with
  | nil => simp [findEntry]
  | cons p rest ih =>
    obtain ⟨k, v⟩ := p
    rw [List.filter_cons]
    by_cases hk : k = d
    · have hpred : (decide ((k, v).1 ≠ d)) = false := by simp [hk]
      rw [hpred]
      simp only [Bool.false_eq_true, if_false]
      rw [ih]
      by_cases hid : id = d
      · simp [hid]
      · have hki : k ≠ id := by rw [hk]; exact fun he => hid he.symm
        simp [findEntry, hid, hki]
    · have hpred : (decide ((k, v).1 ≠ d)) = true := by simp [hk]
      rw [hpred]
      simp only [if_true]
      simp only [findEntry]
      by_cases hki : k = id
      · have hid : ¬ id = d := by
          rw [← hki]
          exact hk
        simp [hki, hid]
      · rw [if_neg hki, ih]
        by_cases hid : id = d <;> simp [hid, hki]

theorem foldl_removeNode_getNode :
    ∀ (dead : List String) (g : LockFile) (id : String),
    (dead.foldl LockFile.removeNode g).getNode id =
      if dead.contains id then none else g.getNode id := by
  intro dead
  induction dead with
  | nil =>
    intro g id
    simp
  | cons d rest ih =>
    intro g id
    simp only [List.foldl_cons]
    rw [ih]
    by_cases hid : id = d
    · subst hid
      by_cases hr : rest.contains id = true <;> simp [hr, removeNode_getNode]
    · by_cases hr : rest.contains id = true <;>
        simp [hr, removeNode_getNode, hid]

theorem foldl_removeNode_rootIndex :
    ∀ (dead : List String) (g : LockFile),
    (dead.foldl LockFile.removeNode g).rootIndex = g.rootIndex := by
  intro dead
  induction dead with
  | nil => intro g; rfl
  | cons d rest ih =>
    intro g
    simp only [List.foldl_cons]
    rw [ih]
    rfl

/-! ## Preservation of resolution in the pruned graph -/

theorem walkWith_preserved {g g1 : LockFile} {tally : List (String × Nat)}
    (HG1 : ∀ i, tallyPos tally i → g1.getNode i = g.getNode i)
    {f : Nat}
    (hP : ∀ e j, resolveEdge g f e = some j →
      (∃ i n nm, tallyPos tally i ∧ g.getNode i = some n ∧ (nm, e) ∈ n.edges) →
      resolveEdge g1 f e = some j ∧ tallyPos tally j) :
    ∀ p cur j, walkWith g (fun e => resolveEdge g f e) cur p = some j →
      tallyPos tally cur →
      walkWith g1 (fun e => resolveEdge g1 f e) cur p = some j ∧ tallyPos tally j := by
  intro p
  induction p with
  | nil =>
    intro cur j h hcur
    simp only [walkWith] at h
    cases h
    exact ⟨by simp [walkWith], hcur⟩
  | cons name rest ih =>
    intro cur j h hcur
    simp only [walkWith] at h
    cases hn : g.getNode cur with
    | none => simp only [hn] at h; exact Option.noConfusion h
    | some node =>
      simp only [hn] at h
      cases he : node.getEdge name with
      | none => simp only [he] at h; exact Option.noConfusion h
      | some e =>
        simp only [he] at h
        cases hr : resolveEdge g f e with
        | none => simp only [hr] at h; exact Option.noConfusion h
        | some next =>
          simp only [hr] at h
          have hEdge : ∃ i n nm, tallyPos tally i ∧ g.getNode i = some n ∧ (nm, e) ∈ n.edges :=
            ⟨cur, node, name, hcur, hn, findEntry_mem he⟩
          obtain ⟨hr1, hnext⟩ := hP e next hr hEdge
          obtain ⟨hw1, hj⟩ := ih next j h hnext
          refine ⟨?_, hj⟩
          simp only [walkWith, HG1 cur hcur, hn, he, hr1]
          exact hw1

theorem resolveEdge_preserved {g g1 : LockFile} {rfuel : Nat} {tally : List (String × Nat)}
    (HG1 : ∀ i, tallyPos tally i → g1.getNode i = g.getNode i)
    (HC : ∀ i, tallyPos tally i → ClosedAt g rfuel tally i)
    (HR1 : g1.rootIndex = g.rootIndex)
    (HVroot : tallyPos tally g.rootIndex) :
    ∀ f e j, resolveEdge g f e = some j →
      (∃ i n nm, tallyPos tally i ∧ g.getNode i = some n ∧ (nm, e) ∈ n.edges) →
      resolveEdge g1 f e = some j ∧ tallyPos tally j := by
  intro f
  induction f with
  | zero =>
    intro e j h
    simp [resolveEdge] at h
  | succ f ih =>
    intro e j h hEdge
    cases e with
    | indexed id =>
      have hj : j = id ∧ (g.getNode id).isSome = true := by
        simp only [resolveEdge] at h
        by_cases hp : (g.getNode id).isSome = true
        · rw [if_pos hp] at h
          exact ⟨(Option.some.inj h).symm, hp⟩
        · rw [if_neg hp] at h
          exact Option.noConfusion h
      obtain ⟨hjid, hpres⟩ := hj
      subst hjid
      obtain ⟨i, n, nm, hVi, hgn, hmem⟩ := hEdge
      obtain ⟨n', hgn', hcl⟩ := HC i hVi
      rw [hgn] at hgn'
      have hnn : n = n' := by injection hgn'
      subst hnn
      obtain ⟨j', hj', hVj'⟩ := hcl (nm, .indexed j) hmem
      have hjj : j' = j := by
        cases rfuel with
        | zero => simp [resolveEdge] at hj'
        | succ r =>
          simp only [resolveEdge] at hj'
          by_cases hp : (g.getNode j).isSome = true
          · rw [if_pos hp] at hj'
            exact (Option.some.inj hj').symm
          · rw [if_neg hp] at hj'
            exact Option.noConfusion hj'
      subst hjj
      refine ⟨?_, hVj'⟩
      simp only [resolveEdge, HG1 j' hVj']
      rw [if_pos hpres]
    | follows path =>
      simp only [resolveEdge] at h ⊢
      rw [HR1]
      exact walkWith_preserved HG1 (fun e' j' h' hE' => ih e' j' h' hE')
        path g.rootIndex j h HVroot

theorem pruneOrphanNodes_eq {g : LockFile} {rfuel fuel : Nat} {g1 : LockFile}
    (h : pruneOrphanNodes g rfuel fuel = some g1) :
    ∃ tally, countFromIndex g rfuel fuel g.rootIndex = some tally ∧
      g1 = ((tally.filter (fun p => p.2 = 0)).map Prod.fst).foldl LockFile.removeNode g := by
  simp only [pruneOrphanNodes] at h
  cases hc : countFromIndex g rfuel fuel g.rootIndex with
  | none => simp only [hc] at h; exact Option.noConfusion h
  | some tally =>
    simp only [hc] at h
    cases h
    exact ⟨tally, rfl, rfl⟩

theorem dead_contains_iff {tally : List (String × Nat)}
    (hnd : (tally.map Prod.fst).Nodup) (id : String) :
    ((tally.filter (fun p => p.2 = 0)).map Prod.fst).contains id = true ↔
      findEntry tally id = some 0 := by
  rw [List.elem_iff]
  constructor
  · intro hmem
    obtain ⟨q, hq, hq1⟩ := List.mem_map.mp hmem
    have hq2 := List.mem_filter.mp hq
    have hv : q.2 = 0 := by simpa using hq2.2
    have : (id, 0) ∈ tally := by
      have : q = (id, 0) := by
        obtain ⟨q1, q2⟩ := q
        simp at hq1 hv
        simp [hq1, hv]
      rw [← this]
      exact hq2.1
    exact mem_findEntry hnd this
  · intro hfind
    have hmem : (id, 0) ∈ tally := findEntry_mem hfind
    have : (id, 0) ∈ tally.filter (fun p => p.2 = 0) :=
      List.mem_filter.mpr ⟨hmem, by simp⟩
    exact List.mem_map.mpr ⟨(id, 0), this, rfl⟩

theorem reaches_lift {g g1 : LockFile} {rfuel : Nat} {tally : List (String × Nat)}
    (HG1 : ∀ i, tallyPos tally i → g1.getNode i = g.getNode i)
    (HC : ∀ i, tallyPos tally i → ClosedAt g rfuel tally i)
    (HR1 : g1.rootIndex = g.rootIndex)
    (HVroot : tallyPos tally g.rootIndex) :
    ∀ id, Reaches g g.rootIndex id →
      tallyPos tally id ∧ Reaches g1 g1.rootIndex id := by
  intro id hreach
  induction hreach with
  | refl =>
    refine ⟨HVroot, ?_⟩
    rw [HR1]
    exact Reaches.refl
  | step h1 h2 h3 h4 ih =>
    rename_i i j n p f
    obtain ⟨hVi, hri⟩ := ih
    obtain ⟨n', hn', hcl⟩ := HC i hVi
    rw [h2] at hn'
    have hnn : n = n' := by injection hn'
    subst hnn
    obtain ⟨j', hj', hVj'⟩ := hcl p h3
    have hjj : j = j' := resolveEdge_det h4 hj'
    subst hjj
    refine ⟨hVj', ?_⟩
    have hmem : (p.1, p.2) ∈ n.edges := by
      simpa using h3
    obtain ⟨hr1, _⟩ := resolveEdge_preserved HG1 HC HR1 HVroot rfuel p.2 j hj'
      ⟨i, n, p.1, hVi, h2, hmem⟩
    exact Reaches.step hri (by rw [HG1 i hVi]; exact h2) h3 hr1

/-! ## Claim C5: pruning safety -/

/-- Claim C5. After a successful prune: every identifier whose tally was zero
has been removed, every surviving node is reachable from the root in the
pruned graph by a chain of edge resolutions, and the root node survives. -/
theorem claim5_pruning_safety (g : LockFile) (rfuel fuel : Nat) (g1 : LockFile)
    (hnd : (g.nodes.map Prod.fst).Nodup)
    (h : pruneOrphanNodes g rfuel fuel = some g1) :
    (∀ tally, countFromIndex g rfuel fuel g.rootIndex = some tally →
      ∀ id, findEntry tally id = some 0 → g1.getNode id = none) ∧
    (∀ id n, g1.getNode id = some n → Reaches g1 g1.rootIndex id) ∧
    (∃ rn, g1.getNode g1.rootIndex = some rn) := by
  obtain ⟨tally, hcount, hg1⟩ := pruneOrphanNodes_eq h
  have hkeys : tally.map Prod.fst = g.nodes.map Prod.fst := countFromIndex_keys hcount
  have hndt : (tally.map Prod.fst).Nodup := by rw [hkeys]; exact hnd
  have hG1get : ∀ id, g1.getNode id =
      if ((tally.filter (fun p => p.2 = 0)).map Prod.fst).contains id then none
      else g.getNode id := by
    intro id
    rw [hg1]
    exact foldl_removeNode_getNode _ g id
  have HR1 : g1.rootIndex = g.rootIndex := by
    rw [hg1]
    exact foldl_removeNode_rootIndex _ g
  have HG1 : ∀ i, tallyPos tally i → g1.getNode i = g.getNode i := by
    intro i hVi
    obtain ⟨v, hv, hv1⟩ := hVi
    rw [hG1get i, if_neg]
    intro hc
    rw [dead_contains_iff hndt i] at hc
    rw [hv] at hc
    injection hc with hc
    omega
  have HVroot : tallyPos tally g.rootIndex := by
    simp only [countFromIndex] at hcount
    exact recurseInputs_pos hcount
  have HC := countFromIndex_closed hcount
  refine ⟨?_, ?_, ?_⟩
  · intro tally' hcount' id h0
    have htt : tally' = tally := by
      rw [hcount] at hcount'
      injection hcount' with h'
      exact h'.symm
    subst htt
    rw [hG1get id, if_pos]
    rw [dead_contains_iff hndt id]
    exact h0
  · intro id n hn
    have hkeep : ¬ ((tally.filter (fun p => p.2 = 0)).map Prod.fst).contains id = true := by
      intro hc
      rw [hG1get id, if_pos hc] at hn
      exact Option.noConfusion hn
    have hgn : g.getNode id = some n := by
      rw [hG1get id, if_neg hkeep] at hn
      exact hn
    have hVid : tallyPos tally id := by
      have hmemk : id ∈ tally.map Prod.fst := by
        rw [hkeys]
        exact (findEntry_isSome g.nodes id).mp (Option.isSome_iff_exists.mpr ⟨n, hgn⟩)
      obtain ⟨v, hv⟩ := Option.isSome_iff_exists.mp ((findEntry_isSome tally id).mpr hmemk)
      refine ⟨v, hv, ?_⟩
      rcases Nat.eq_zero_or_pos v with hv0 | hv1
      · subst hv0
        exact absurd ((dead_contains_iff hndt id).mpr hv) hkeep
      · exact hv1
    have hreach : Reaches g g.rootIndex id :=
      countFromIndex_reaches hcount id hVid
    exact (reaches_lift HG1 HC HR1 HVroot id hreach).2
  · obtain ⟨rn, hrn, _⟩ := HC g.rootIndex HVroot
    refine ⟨rn, ?_⟩
    rw [HR1, HG1 g.rootIndex HVroot]
    exact hrn

/-- Witness for claim C5: the orphan graph, where the never-referenced node
stray has tally zero and is removed while root and nA survive. -/
theorem claim5_pruning_safety_witness :
    ((orphanGraph.nodes.map Prod.fst).Nodup ∧
      pruneOrphanNodes orphanGraph 10 10 =
        some { nodes := [("root", { edges := [("a", NodeEdge.indexed "nA")] }),
                         ("nA", { edges := [] })],
               rootIndex := "root", version := 7 }) ∧
    ((∀ tally, countFromIndex orphanGraph 10 10 orphanGraph.rootIndex = some tally →
      ∀ id, findEntry tally id = some 0 →
        LockFile.getNode { nodes := [("root", { edges := [("a", NodeEdge.indexed "nA")] }),
                                     ("nA", { edges := [] })],
                           rootIndex := "root", version := 7 } id = none) ∧
    (∀ id n, LockFile.getNode { nodes := [("root", { edges := [("a", NodeEdge.indexed "nA")] }),
                                          ("nA", { edges := [] })],
                                rootIndex := "root", version := 7 } id = some n →
      Reaches { nodes := [("root", { edges := [("a", NodeEdge.indexed "nA")] }),
                          ("nA", { edges := [] })],
                rootIndex := "root", version := 7 }
        (LockFile.rootIndex { nodes := [("root", { edges := [("a", NodeEdge.indexed "nA")] }),
                                        ("nA", { edges := [] })],
                              rootIndex := "root", version := 7 }) id) ∧
    (∃ rn, LockFile.getNode { nodes := [("root", { edges := [("a", NodeEdge.indexed "nA")] }),
                                        ("nA", { edges := [] })],
                              rootIndex := "root", version := 7 }
      (LockFile.rootIndex { nodes := [("root", { edges := [("a", NodeEdge.indexed "nA")] }),
                                      ("nA", { edges := [] })],
                            rootIndex := "root", version := 7 }) = some rn)) :=
  ⟨⟨by decide, by decide⟩,
    claim5_pruning_safety orphanGraph 10 10 _ (by decide) (by decide)⟩

/-! ## Claim C7: cycle-safe config emission -/

theorem travEdgesWith_guard (g : LockFile) (ri : List String) (rfuel : Nat)
    (recN : String → List String → List String →
      Option (String × List (String × List String)))
    (hrec : ∀ i p v out evs, recN i p v = some (out, evs) → ∀ ev ∈ evs, ev.1 ∉ ev.2) :
    ∀ l path visited out evs,
      travEdgesWith g ri rfuel recN l path visited = some (out, evs) →
      ∀ ev ∈ evs, ev.1 ∉ ev.2 := by
  intro l
  induction l with
  | nil =>
    intro path visited out evs h
    simp only [travEdgesWith] at h
    cases h
    simp
  | cons q rest ih =>
    intro path visited out evs h
    obtain ⟨en, e⟩ := q
    simp only [travEdgesWith] at h
    by_cases hcon : ri.contains en = true
    · rw [if_pos hcon] at h
      cases hrest : travEdgesWith g ri rfuel recN rest path visited with
      | none => rw [hrest] at h; exact Option.noConfusion h
      | some r2 =>
        obtain ⟨o2, e2⟩ := r2
        rw [hrest] at h
        simp only at h
        cases h
        exact ih path visited _ _ hrest
    · rw [if_neg hcon] at h
      cases hr : resolveEdge g rfuel e with
      | none =>
        simp only [hr] at h
        exact ih path visited out evs h
      | some child =>
        simp only [hr] at h
        by_cases hvc : visited.contains child = true
        · rw [if_pos hvc] at h
          exact ih path visited out evs h
        · rw [if_neg hvc] at h
          cases hn : recN child (path ++ [en]) (visited ++ [child]) with
          | none => rw [hn] at h; exact Option.noConfusion h
          | some r1 =>
            obtain ⟨o1, e1⟩ := r1
            rw [hn] at h
            cases hrest : travEdgesWith g ri rfuel recN rest path visited with
            | none => rw [hrest] at h; exact Option.noConfusion h
            | some r2 =>
              obtain ⟨o2, e2⟩ := r2
              rw [hrest] at h
              simp only at h
              cases h
              intro ev hev
              rcases List.mem_cons.mp hev with hev1 | hev1
              · subst hev1
                simp only
                intro hmem
                exact hvc (List.elem_iff.mpr hmem)
              · rcases List.mem_append.mp hev1 with hev2 | hev2
                · exact hrec child (path ++ [en]) (visited ++ [child]) o1 e1 hn ev hev2
                · exact ih path visited o2 e2 hrest ev hev2

theorem traverseNode_guard (g : LockFile) (ri : List String) (rfuel : Nat) :
    ∀ fuel idx path visited out evs,
      traverseNode g ri rfuel fuel idx path visited = some (out, evs) →
      ∀ ev ∈ evs, ev.1 ∉ ev.2 := by
  intro fuel
  induction fuel with
  | zero =>
    intro idx path visited out evs h
    simp [traverseNode] at h
  | succ fuel ih =>
    intro idx path visited out evs h
    simp only [traverseNode] at h
    cases hn : g.getNode idx with
    | none => simp only [hn] at h; exact Option.noConfusion h
    | some node =>
      simp only [hn] at h
      exact travEdgesWith_guard g ri rfuel _
        (fun i p v o es hs => ih i p v o es hs) node.edges path visited out evs h

theorem printFold_guard (g : LockFile) (ri : List String) (rfuel fuel : Nat) :
    ∀ l out evs, printFold g ri rfuel fuel l = some (out, evs) →
      ∀ ev ∈ evs, ev.1 ∉ ev.2 := by
  intro l
  induction l with
  | nil =>
    intro out evs h
    simp only [printFold] at h
    cases h
    simp
  | cons q rest ih =>
    intro out evs h
    obtain ⟨nm, e⟩ := q
    simp only [printFold] at h
    cases hi : e.index with
    | none =>
      simp only [hi] at h
      exact ih out evs h
    | some idx =>
      simp only [hi] at h
      cases hn : traverseNode g ri rfuel fuel idx [nm] [idx] with
      | none => rw [hn] at h; exact Option.noConfusion h
      | some r1 =>
        obtain ⟨o1, e1⟩ := r1
        rw [hn] at h
        cases hrest : printFold g ri rfuel fuel rest with
        | none => rw [hrest] at h; exact Option.noConfusion h
        | some r2 =>
          obtain ⟨o2, e2⟩ := r2
          rw [hrest] at h
          simp only at h
          cases h
          intro ev hev
          rcases List.mem_append.mp hev with hev1 | hev1
          · exact traverseNode_guard g ri rfuel fuel idx [nm] [idx] o1 e1 hn ev hev1
          · exact ih o2 e2 hrest ev hev1

theorem nodup_subset_length_le {l L : List String} (hnd : l.Nodup)
    (hsub : ∀ x ∈ l, x ∈ L) : l.length ≤ L.length := by
  calc l.length = l.toFinset.card := (List.toFinset_card_of_nodup hnd).symm
    _ ≤ L.toFinset.card := by
        apply Finset.card_le_card
        intro x hx
        rw [List.mem_toFinset] at hx ⊢
        exact hsub x hx
    _ ≤ L.length := L.toFinset_card_le

theorem travEdgesWith_isSome (g : LockFile) (ri : List String) (rfuel : Nat)
    (recN : String → List String → List String →
      Option (String × List (String × List String)))
    (path visited : List String)
    (hrec : ∀ child p', child ∈ g.nodes.map Prod.fst → child ∉ visited →
      (recN child p' (visited ++ [child])).isSome = true) :
    ∀ l, (∀ q ∈ l, ∃ j, resolveEdge g rfuel q.2 = some j ∧ j ∈ g.nodes.map Prod.fst) →
      (travEdgesWith g ri rfuel recN l path visited).isSome = true := by
  intro l
  induction l with
  | nil =>
    intro _
    simp [travEdgesWith]
  | cons q rest ih =>
    intro hedges
    obtain ⟨en, e⟩ := q
    have hrest := ih (fun q hq => hedges q (List.mem_cons_of_mem _ hq))
    obtain ⟨r2, hr2⟩ := Option.isSome_iff_exists.mp hrest
    obtain ⟨o2, e2⟩ := r2
    simp only [travEdgesWith]
    by_cases hcon : ri.contains en = true
    · rw [if_pos hcon, hr2]
      rfl
    · rw [if_neg hcon]
      obtain ⟨j, hj, hjmem⟩ := hedges (en, e) (List.mem_cons_self _ _)
      simp only at hj
      simp only [hj]
      by_cases hvc : visited.contains j = true
      · rw [if_pos hvc, hr2]
        rfl
      · rw [if_neg hvc]
        have hnotin : j ∉ visited := fun hmem => hvc (List.elem_iff.mpr hmem)
        obtain ⟨r1, hr1⟩ := Option.isSome_iff_exists.mp
          (hrec j (path ++ [en]) hjmem hnotin)
        obtain ⟨o1, e1⟩ := r1
        rw [hr1, hr2]
        rfl

theorem traverseNode_isSome (g : LockFile) (ri : List String) (rfuel : Nat)
    (HE : ∀ p ∈ g.nodes, ∀ q ∈ p.2.edges,
      ∃ j, resolveEdge g rfuel q.2 = some j ∧ j ∈ g.nodes.map Prod.fst) :
    ∀ fuel idx path visited, visited.Nodup →
      (∀ v ∈ visited, v ∈ g.nodes.map Prod.fst) →
      idx ∈ g.nodes.map Prod.fst →
      g.nodes.length + 1 ≤ fuel + visited.length →
      (traverseNode g ri rfuel fuel idx path visited).isSome = true := by
  intro fuel
  induction fuel with
  | zero =>
    intro idx path visited hnd hsub _ hbound
    have hlen : visited.length ≤ g.nodes.length := by
      have := nodup_subset_length_le hnd hsub
      simpa using this
    omega
  | succ fuel ih =>
    intro idx path visited hnd hsub hidx hbound
    obtain ⟨node, hnode⟩ := Option.isSome_iff_exists.mp
      ((findEntry_isSome g.nodes idx).mpr hidx)
    have hnode' : g.getNode idx = some node := hnode
    simp only [traverseNode, hnode']
    refine travEdgesWith_isSome g ri rfuel _ path visited ?_ node.edges ?_
    · intro child p' hchild hnotin
      refine ih child p' (visited ++ [child]) ?_ ?_ hchild ?_
      · exact List.Nodup.append hnd (List.nodup_singleton child)
          (fun x hx hx1 => hnotin (by rw [List.mem_singleton.mp hx1] at hx; exact hx))
      · intro v hv
        rcases List.mem_append.mp hv with hv1 | hv1
        · exact hsub v hv1
        · rw [List.mem_singleton.mp hv1]
          exact hchild
      · simp only [List.length_append, List.length_singleton]
        omega
    · exact HE (idx, node) (findEntry_mem hnode)

theorem printFold_isSome (g : LockFile) (ri : List String) (rfuel fuel : Nat)
    (HE : ∀ p ∈ g.nodes, ∀ q ∈ p.2.edges,
      ∃ j, resolveEdge g rfuel q.2 = some j ∧ j ∈ g.nodes.map Prod.fst)
    (hfuel : g.nodes.length ≤ fuel) :
    ∀ l, (∀ q ∈ l, ∃ j, resolveEdge g rfuel q.2 = some j ∧ j ∈ g.nodes.map Prod.fst) →
      (printFold g ri rfuel fuel l).isSome = true := by
  intro l
  induction l with
  | nil =>
    intro _
    simp [printFold]
  | cons q rest ih =>
    intro hedges
    obtain ⟨nm, e⟩ := q
    have hrest := ih (fun q hq => hedges q (List.mem_cons_of_mem _ hq))
    obtain ⟨r2, hr2⟩ := Option.isSome_iff_exists.mp hrest
    obtain ⟨o2, e2⟩ := r2
    simp only [printFold]
    cases e with
    | follows p =>
      simp only [NodeEdge.index]
      exact hrest
    | indexed id =>
      simp only [NodeEdge.index]
      have hidxmem : id ∈ g.nodes.map Prod.fst := by
        obtain ⟨j, hj, hjmem⟩ := hedges (nm, .indexed id) (List.mem_cons_self _ _)
        cases rfuel with
        | zero => simp [resolveEdge] at hj
        | succ r =>
          simp only [resolveEdge] at hj
          by_cases hp : (g.getNode id).isSome = true
          · rw [if_pos hp] at hj
            have hij : id = j := Option.some.inj hj
            rw [hij]
            exact hjmem
          · rw [if_neg hp] at hj
            exact Option.noConfusion hj
      have hnodetrav := traverseNode_isSome g ri rfuel HE fuel id [nm] [id]
        (List.nodup_singleton id) (fun v hv => by rw [List.mem_singleton.mp hv]; exact hidxmem)
        hidxmem (by simp only [List.length_singleton]; omega)
      obtain ⟨r1, hr1⟩ := Option.isSome_iff_exists.mp hnodetrav
      obtain ⟨o1, e1⟩ := r1
      rw [hr1, hr2]
      rfl

/-- Claim C7. On any graph whose edges all resolve to present nodes — cyclic
subgraphs included, as long as every hop is well formed — config emission
terminates with enough fuel (one unit per node plus one), and its traversal
never descends into an identifier already on the current visited stack: every
recorded descent event pairs a child with a stack not containing it. -/
theorem claim7_config_emission_terminates (g : LockFile) (rfuel fuel : Nat)
    (hroot : (g.getNode g.rootIndex).isSome = true)
    (hres : ∀ p ∈ g.nodes, ∀ q ∈ p.2.edges,
      ((resolveEdge g rfuel q.2).bind (fun j => g.getNode j)).isSome = true)
    (hfuel : g.nodes.length ≤ fuel) :
    ∃ out evs, printFlakeFollowsConfig g rfuel fuel = some (out, evs) ∧
      ∀ ev ∈ evs, ev.1 ∉ ev.2 := by
  have HE : ∀ p ∈ g.nodes, ∀ q ∈ p.2.edges,
      ∃ j, resolveEdge g rfuel q.2 = some j ∧ j ∈ g.nodes.map Prod.fst := by
    intro p hp q hq
    have := hres p hp q hq
    cases hr : resolveEdge g rfuel q.2 with
    | none => rw [hr] at this; exact Bool.noConfusion this
    | some j =>
      rw [hr] at this
      simp only [Option.bind] at this
      exact ⟨j, rfl, (findEntry_isSome g.nodes j).mp this⟩
  obtain ⟨root, hrootn⟩ := Option.isSome_iff_exists.mp hroot
  have hfold := printFold_isSome g (root.edges.map Prod.fst) rfuel fuel HE hfuel
    root.edges (HE (g.rootIndex, root) (findEntry_mem hrootn))
  obtain ⟨r, hr⟩ := Option.isSome_iff_exists.mp hfold
  obtain ⟨body, evs⟩ := r
  refine ⟨"# START INPUT FOLLOW BLOCK -- DO NOT EDIT MANUALLY\n" ++
    "inputs = \x7b\n" ++ body ++ "\x7d;\n" ++
    "# END INPUT FOLLOW BLOCK -- DO NOT EDIT MANUALLY", evs, ?_, ?_⟩
  · simp only [printFlakeFollowsConfig, hrootn, hr]
  · exact printFold_guard g (root.edges.map Prod.fst) rfuel fuel root.edges body evs hr

/-- Witness for claim C7: the cyclic graph with the nA and nB loop through
edge names that match no root input, at fuel one above its node count. -/
theorem claim7_config_emission_terminates_witness :
    ((cycleGraph.getNode cycleGraph.rootIndex).isSome = true ∧
    (∀ p ∈ cycleGraph.nodes, ∀ q ∈ p.2.edges,
      ((resolveEdge cycleGraph 5 q.2).bind (fun j => cycleGraph.getNode j)).isSome = true) ∧
    cycleGraph.nodes.length ≤ 4) ∧
    (∃ out evs, printFlakeFollowsConfig cycleGraph 5 4 = some (out, evs) ∧
      ∀ ev ∈ evs, ev.1 ∉ ev.2) :=
  ⟨⟨by decide, by decide, by decide⟩,
    claim7_config_emission_terminates cycleGraph 5 4 (by decide) (by decide) (by decide)⟩

/-! ## Claim C6: idempotence machinery -/

theorem bump_filter (q : String → Bool) :
    ∀ (t t' : List (String × Nat)) (key : String), bump t key = some t' → q key = true →
      bump (t.filter (fun p => q p.1)) key = some (t'.filter (fun p => q p.1)) := by
  intro t
  induction t with
  | nil =>
    intro t' key h
    simp [bump] at h
  | cons p rest ih =>
    intro t' key h hq
    obtain ⟨k, v⟩ := p
    by_cases hk : k = key
    · subst hk
      simp only [bump, if_pos rfl] at h
      cases h
      simp only [List.filter_cons]
      have hqk : q (k, v).1 = true := hq
      rw [hqk]
      simp only [if_true, bump, if_pos rfl]
    · simp only [bump, if_neg hk] at h
      cases hb : bump rest key with
      | none => rw [hb] at h; exact Option.noConfusion h
      | some rest1 =>
        rw [hb] at h
        cases h
        have hrec := ih rest1 key hb hq
        simp only [List.filter_cons]
        cases hqk : q (k, v).1 with
        | true =>
          simp only [if_true, bump, if_neg hk, hrec]
        | false =>
          simp only [Bool.false_eq_true, if_false]
          rw [hrec]

theorem filter_key_map_fst {α : Type} (q : String → Bool) :
    ∀ (l : List (String × α)),
      (l.filter (fun p => q p.1)).map Prod.fst = (l.map Prod.fst).filter q := by
  intro l
  induction l with
  | nil => simp
  | cons p rest ih =>
    simp only [List.filter_cons, List.map_cons]
    cases hq : q p.1 with
    | true =>
      simp only [if_true, List.map_cons, ih]
    | false =>
      simp only [Bool.false_eq_true, if_false, ih]

theorem filter_key_map_zero {α : Type} (q : String → Bool) :
    ∀ (l : List (String × α)),
      ((l.filter (fun p => q p.1)).map (fun p => (p.1, (0 : Nat)))) =
        (l.map (fun p => (p.1, (0 : Nat)))).filter (fun p => q p.1) := by
  intro l
  induction l with
  | nil => simp
  | cons p rest ih =>
    simp only [List.filter_cons, List.map_cons]
    cases hq : q p.1 with
    | true =>
      simp only [if_true, List.map_cons, ih]
    | false =>
      simp only [Bool.false_eq_true, if_false, ih]

theorem foldl_removeNode_nodes :
    ∀ (dead : List String) (g : LockFile),
    (dead.foldl LockFile.removeNode g).nodes =
      g.nodes.filter (fun p => !(dead.contains p.1)) := by
  intro dead
  induction dead with
  | nil =>
    intro g
    simp
  | cons d rest ih =>
    intro g
    simp only [List.foldl_cons]
    rw [ih]
    simp only [LockFile.removeNode, List.filter_filter]
    apply List.filter_congr
    intro p _
    by_cases hpd : p.1 = d
    · simp [hpd]
    · simp [hpd]

theorem resolve_self_follows {g : LockFile} {nm : String} {rn : Node}
    (hroot : g.getNode g.rootIndex = some rn)
    (hedge : rn.getEdge nm = some (.follows [nm])) :
    ∀ f, resolveEdge g f (.follows [nm]) = none := by
  intro f
  induction f with
  | zero => rfl
  | succ f ih =>
    simp only [resolveEdge, walkWith, hroot, hedge, ih]

theorem substEdges_id {g1 : LockFile} {root : Node} {ind : Bool} {rfuel : Nat} :
    ∀ l : List (String × NodeEdge),
      (∀ p ∈ l, (∀ re, root.getEdge p.1 = some re →
          p.2 = (if ind then re else NodeEdge.follows [p.1])) ∧
        (root.getEdge p.1 = none → (resolveEdge g1 rfuel p.2).isSome = true)) →
      substEdges g1 root ind rfuel l = some l := by
  intro l
  induction l with
  | nil =>
    intro _
    simp [substEdges]
  | cons p rest ih =>
    intro hl
    obtain ⟨en, e⟩ := p
    have hrest := ih (fun q hq => hl q (List.mem_cons_of_mem _ hq))
    have hhead := hl (en, e) (List.mem_cons_self _ _)
    cases hrt : root.getEdge en with
    | some re =>
      have he : e = (if ind then re else NodeEdge.follows [en]) := hhead.1 re hrt
      simp only [substEdges, hrt, hrest]
      rw [← he]
    | none =>
      obtain ⟨j, hj⟩ := Option.isSome_iff_exists.mp (hhead.2 hrt)
      simp only [substEdges, hrt, hj, hrest]

theorem substFold_id {ind : Bool} {rfuel : Nat} :
    ∀ (L : List (String × String)) (g : LockFile), (g.nodes.map Prod.fst).Nodup →
      (∀ q ∈ L, ∃ n, g.getNode q.2 = some n ∧
        substituteNodeInputs g n ind rfuel = some n) →
      substFold ind rfuel L g = some g := by
  intro L
  induction L with
  | nil =>
    intro g _ _
    rfl
  | cons q rest ih =>
    intro g hnd hL
    obtain ⟨nm, idx⟩ := q
    obtain ⟨n, hn, hsub⟩ := hL (nm, idx) (List.mem_cons_self _ _)
    simp only [substFold, hn, hsub]
    rw [setNode_self hnd hn]
    exact ih g hnd (fun q hq => hL q (List.mem_cons_of_mem _ hq))

theorem rootIndexedInputs_mem {root : Node} {nm idx : String}
    (h : (nm, idx) ∈ rootIndexedInputs root) : (nm, NodeEdge.indexed idx) ∈ root.edges := by
  simp only [rootIndexedInputs] at h
  obtain ⟨p, hp, hpf⟩ := List.mem_filterMap.mp h
  obtain ⟨pn, pe⟩ := p
  cases pe with
  | indexed id =>
    simp only [NodeEdge.index, Option.map_some'] at hpf
    have hpe := Option.some.inj hpf
    rw [Prod.mk.injEq] at hpe
    obtain ⟨h1, h2⟩ := hpe
    subst h1
    subst h2
    exact hp
  | follows p =>
    simp [NodeEdge.index] at hpf

theorem recEdgesWith_corr {g g1 : LockFile} {rfuel : Nat} {tally : List (String × Nat)}
    (keep : String → Bool)
    (recN recN1 : String → List (String × Nat) → Option (List (String × Nat)))
    (HPRES : ∀ e j i n nm, tallyPos tally i → g.getNode i = some n → (nm, e) ∈ n.edges →
      resolveEdge g rfuel e = some j →
      resolveEdge g1 rfuel e = some j ∧ tallyPos tally j)
    (hcorr : ∀ j t t', recN j t = some t' → tallyPos tally j →
      recN1 j (t.filter (fun p => keep p.1)) = some (t'.filter (fun p => keep p.1))) :
    ∀ l t t' i n, tallyPos tally i → g.getNode i = some n → (∀ q ∈ l, q ∈ n.edges) →
      recEdgesWith g rfuel recN l t = some t' →
      recEdgesWith g1 rfuel recN1 l (t.filter (fun p => keep p.1)) =
        some (t'.filter (fun p => keep p.1)) := by
  intro l
  induction l with
  | nil =>
    intro t t' i n _ _ _ h
    simp only [recEdgesWith] at h
    cases h
    rfl
  | cons q0 rest ih =>
    intro t t' i n hVi hgn hsub h
    obtain ⟨nm, e⟩ := q0
    simp only [recEdgesWith] at h
    cases hr : resolveEdge g rfuel e with
    | none => simp only [hr] at h; exact Option.noConfusion h
    | some j =>
      simp only [hr] at h
      cases hn : recN j t with
      | none => simp only [hn] at h; exact Option.noConfusion h
      | some t2 =>
        simp only [hn] at h
        obtain ⟨hr1, hVj⟩ :=
          HPRES e j i n nm hVi hgn (hsub (nm, e) (List.mem_cons_self _ _)) hr
        have hc1 := hcorr j t t2 hn hVj
        have hrest := ih t2 t' i n hVi hgn
          (fun q hq => hsub q (List.mem_cons_of_mem _ hq)) h
        simp only [recEdgesWith, hr1, hc1, hrest]

theorem recurseInputs_corr {g g1 : LockFile} {rfuel : Nat} {tally : List (String × Nat)}
    (keep : String → Bool)
    (HG1 : ∀ i, tallyPos tally i → g1.getNode i = g.getNode i)
    (Hkeep : ∀ i, tallyPos tally i → keep i = true)
    (HPRES : ∀ e j i n nm, tallyPos tally i → g.getNode i = some n → (nm, e) ∈ n.edges →
      resolveEdge g rfuel e = some j →
      resolveEdge g1 rfuel e = some j ∧ tallyPos tally j) :
    ∀ fuel idx t t', recurseInputs g rfuel fuel idx t = some t' → tallyPos tally idx →
      recurseInputs g1 rfuel fuel idx (t.filter (fun p => keep p.1)) =
        some (t'.filter (fun p => keep p.1)) := by
  intro fuel
  induction fuel with
  | zero =>
    intro idx t t' h
    simp [recurseInputs] at h
  | succ fuel ih =>
    intro idx t t' h hVidx
    simp only [recurseInputs] at h
    cases hgn : g.getNode idx with
    | none => simp only [hgn] at h; exact Option.noConfusion h
    | some node =>
      simp only [hgn] at h
      cases hb : bump t idx with
      | none => simp only [hb] at h; exact Option.noConfusion h
      | some t1 =>
        simp only [hb] at h
        have hb1 := bump_filter keep t t1 idx hb (Hkeep idx hVidx)
        have hrest := recEdgesWith_corr keep _ _ HPRES
          (fun j s s' hs hVj => ih j s s' hs hVj)
          node.edges t1 t' idx node hVidx hgn (fun q hq => hq) h
        have hg1n : g1.getNode idx = some node := by
          rw [HG1 idx hVidx]
          exact hgn
        simp only [recurseInputs, hg1n, hb1, hrest]

/-- Claim C6. Substitution followed by pruning is idempotent: a second
application of the pair returns the same graph unchanged. -/
theorem claim6_substitute_prune_idempotent (g : LockFile) (ind : Bool) (rfuel fuel : Nat)
    (g1 : LockFile)
    (hnd : (g.nodes.map Prod.fst).Nodup)
    (hend : ∀ p ∈ g.nodes, (p.2.edges.map Prod.fst).Nodup)
    (h : subThenPrune g ind rfuel fuel = some g1) :
    subThenPrune g1 ind rfuel fuel = some g1 := by
  simp only [subThenPrune] at h
  cases hsub : substituteFlakeInputs g ind rfuel with
  | none => simp only [hsub] at h; exact Option.noConfusion h
  | some g0 =>
    simp only [hsub] at h
    obtain ⟨root0, hroot0, hfold⟩ := substituteFlakeInputs_eq hsub
    obtain ⟨tally, hcount, hg1⟩ := pruneOrphanNodes_eq h
    obtain ⟨sp1, sp2, sp3, sp4⟩ := substFold_spec ind rfuel _ _ _ hfold
    have hnd0 : (g0.nodes.map Prod.fst).Nodup := by rw [sp2]; exact hnd
    have hend0 : ∀ p ∈ g0.nodes, (p.2.edges.map Prod.fst).Nodup := by
      intro p hp
      have hfind : g0.getNode p.1 = some p.2 := mem_findEntry hnd0 (by simpa using hp)
      obtain ⟨n, hn, hkeq⟩ := sp4 p.1 p.2 hfind
      rw [hkeq]
      exact hend (p.1, n) (findEntry_mem hn)
    have hkt : tally.map Prod.fst = g0.nodes.map Prod.fst := countFromIndex_keys hcount
    have hndt : (tally.map Prod.fst).Nodup := by rw [hkt]; exact hnd0
    have HVroot : tallyPos tally g0.rootIndex := by
      simp only [countFromIndex] at hcount
      exact recurseInputs_pos hcount
    have HC := countFromIndex_closed hcount
    set D := (tally.filter (fun p => p.2 = 0)).map Prod.fst with hD
    have hG1get : ∀ id, g1.getNode id = if D.contains id then none else g0.getNode id := by
      intro id
      rw [hg1]
      exact foldl_removeNode_getNode D g0 id
    have HR1 : g1.rootIndex = g0.rootIndex := by
      rw [hg1]
      exact foldl_removeNode_rootIndex D g0
    have Hkeepf : ∀ i, tallyPos tally i → D.contains i = false := by
      intro i hVi
      obtain ⟨v, hv, hv1⟩ := hVi
      by_cases hc : D.contains i = true
      · rw [hD, dead_contains_iff hndt i] at hc
        rw [hv] at hc
        injection hc with hc
        omega
      · exact Bool.not_eq_true _ ▸ (by simpa using hc)
    have HG1 : ∀ i, tallyPos tally i → g1.getNode i = g0.getNode i := by
      intro i hVi
      rw [hG1get i, Hkeepf i hVi]
      simp
    have HPRES : ∀ e j i n nm, tallyPos tally i → g0.getNode i = some n →
        (nm, e) ∈ n.edges → resolveEdge g0 rfuel e = some j →
        resolveEdge g1 rfuel e = some j ∧ tallyPos tally j := by
      intro e j i n nm hVi hgn hmem hr
      exact resolveEdge_preserved HG1 HC HR1 HVroot rfuel e j hr ⟨i, n, nm, hVi, hgn, hmem⟩
    obtain ⟨root', hroot', hclroot⟩ := HC g0.rootIndex HVroot
    have hg1root : g1.getNode g1.rootIndex = some root' := by
      rw [HR1, HG1 _ HVroot]
      exact hroot'
    have hL : rootIndexedInputs root' = rootIndexedInputs root0 := by
      cases ind with
      | true =>
        have hconst := substFold_root_constant rfuel _ _ _ hfold ⟨hnd, hend⟩
        have hre : root' = root0 := by
          rw [hconst, hroot0] at hroot'
          injection hroot' with hroot'
          exact hroot'.symm
        rw [hre]
      | false =>
        by_cases htgt : g.rootIndex ∈ (rootIndexedInputs root0).map Prod.snd
        · exfalso
          have hroot'g : g0.getNode g.rootIndex = some root' := by
            rw [← sp1]
            exact hroot'
          have hkeq : root'.edges.map Prod.fst = root0.edges.map Prod.fst := by
            obtain ⟨nmid, hnmid, hk⟩ := sp4 g.rootIndex root' hroot'g
            rw [hroot0] at hnmid
            have : root0 = nmid := by injection hnmid
            rw [hk, ← this]
          have hne0 : root0.edges ≠ [] := by
            obtain ⟨q, hq, _⟩ := List.mem_map.mp htgt
            obtain ⟨qn, qi⟩ := q
            exact List.ne_nil_of_mem (rootIndexedInputs_mem hq)
          have hne' : root'.edges ≠ [] := by
            intro hcon
            apply hne0
            have hlen : root'.edges.length = root0.edges.length := by
              have := congrArg List.length hkeq
              simpa using this
            rw [hcon] at hlen
            exact List.eq_nil_of_length_eq_zero hlen.symm
          obtain ⟨q0, rest0, hq0⟩ : ∃ q0 rest0, root'.edges = q0 :: rest0 := by
            cases hre : root'.edges with
            | nil => exact absurd hre hne'
            | cons a b => exact ⟨a, b, rfl⟩
          have hsubf := substFold_substituted_false rfuel _ _ _ hfold g.rootIndex htgt
            root' hroot'g root' hroot'
          have hq0mem : q0 ∈ root'.edges := by rw [hq0]; exact List.mem_cons_self _ _
          have hq0some : (root'.getEdge q0.1).isSome = true := by
            apply (findEntry_isSome root'.edges q0.1).mpr
            exact List.mem_map_of_mem Prod.fst hq0mem
          have hq0F : q0.2 = NodeEdge.follows [q0.1] := hsubf q0 hq0mem hq0some
          have hq0get : root'.getEdge q0.1 = some (NodeEdge.follows [q0.1]) := by
            rw [← hq0F]
            show findEntry root'.edges q0.1 = some q0.2
            rw [hq0]
            obtain ⟨q01, q02⟩ := q0
            simp [findEntry]
          have hresf := resolve_self_follows hroot' hq0get
          cases fuel with
          | zero => simp [countFromIndex, recurseInputs] at hcount
          | succ fuel =>
            simp only [countFromIndex, recurseInputs, hroot'] at hcount
            cases hb : bump (g0.nodes.map (fun p => (p.1, 0))) g0.rootIndex with
            | none => rw [hb] at hcount; exact Option.noConfusion hcount
            | some t1 =>
              rw [hb] at hcount
              rw [hq0] at hcount
              simp only [recEdgesWith] at hcount
              obtain ⟨q01, q02⟩ := q0
              simp only at hq0F
              rw [hq0F] at hcount
              simp only [hresf rfuel] at hcount
              exact Option.noConfusion hcount
        · have hre : root' = root0 := by
            have hfr : g0.getNode g.rootIndex = g.getNode g.rootIndex := sp3 _ htgt
            rw [sp1, hfr, hroot0] at hroot'
            injection hroot' with hroot'
            exact hroot'.symm
          rw [hre]
    have hinputs : ∀ q ∈ rootIndexedInputs root', ∃ n, g1.getNode q.2 = some n ∧
        substituteNodeInputs g1 n ind rfuel = some n := by
      intro q hq
      obtain ⟨nm, idx⟩ := q
      have hedge : (nm, NodeEdge.indexed idx) ∈ root'.edges := rootIndexedInputs_mem hq
      obtain ⟨j, hj, hVj⟩ := hclroot (nm, NodeEdge.indexed idx) hedge
      have hjidx : j = idx := by
        cases rfuel with
        | zero => simp [resolveEdge] at hj
        | succ r =>
          simp only [resolveEdge] at hj
          by_cases hp : (g0.getNode idx).isSome = true
          · rw [if_pos hp] at hj
            exact (Option.some.inj hj).symm
          · rw [if_neg hp] at hj
            exact Option.noConfusion hj
      subst hjidx
      obtain ⟨n, hn, hcln⟩ := HC j hVj
      obtain ⟨nedges⟩ := n
      refine ⟨{ edges := nedges }, ?_, ?_⟩
      · rw [HG1 j hVj]
        exact hn
      · simp only [substituteNodeInputs, hg1root]
        have hidxtgt : j ∈ (rootIndexedInputs root0).map Prod.snd := by
          rw [← hL]
          exact List.mem_map_of_mem Prod.snd hq
        have hse : substEdges g1 root' ind rfuel nedges = some nedges := by
          apply substEdges_id
          intro p hp
          constructor
          · intro re hre
            cases ind with
            | false =>
              have := substFold_substituted_false rfuel _ _ _ hfold j hidxtgt
                { edges := nedges } hn root' hroot' p hp (by rw [hre]; rfl)
              simpa using this
            | true =>
              have hconst := substFold_root_constant rfuel _ _ _ hfold ⟨hnd, hend⟩
              have hre0 : root' = root0 := by
                have hroot'2 := hroot'
                rw [hconst, hroot0] at hroot'2
                injection hroot'2 with hx
                exact hx.symm
              have := substFold_substituted_true rfuel _ _ _ hfold ⟨hnd, hend⟩ root0 hroot0
                j hidxtgt { edges := nedges } hn p hp re (by rw [← hre0]; exact hre)
              simpa using this
          · intro _
            obtain ⟨j2, hj2, hVj2⟩ := hcln p hp
            have hpr := (HPRES p.2 j2 j { edges := nedges } p.1 hVj hn
              (by simpa using hp) hj2).1
            rw [hpr]
            rfl
        rw [hse]
    have hnd1 : (g1.nodes.map Prod.fst).Nodup := by
      rw [hg1, foldl_removeNode_nodes,
        filter_key_map_fst (fun id => !(D.contains id)) g0.nodes]
      exact hnd0.filter _
    have hsub1 : substituteFlakeInputs g1 ind rfuel = some g1 := by
      simp only [substituteFlakeInputs, hg1root]
      exact substFold_id _ g1 hnd1 hinputs
    have hcount' : recurseInputs g0 rfuel fuel g0.rootIndex
        (g0.nodes.map (fun p => (p.1, 0))) = some tally := hcount
    have hcorr := recurseInputs_corr (fun id => !(D.contains id)) HG1
      (fun i hVi => by show (!(D.contains i)) = true; rw [Hkeepf i hVi]; rfl)
      HPRES fuel g0.rootIndex _ tally
      hcount' HVroot
    have hcount1 : countFromIndex g1 rfuel fuel g1.rootIndex =
        some (tally.filter (fun p => !(D.contains p.1))) := by
      rw [HR1]
      simp only [countFromIndex]
      have hinit : g1.nodes.map (fun p => (p.1, 0)) =
          (g0.nodes.map (fun p => (p.1, 0))).filter (fun p => !(D.contains p.1)) := by
        rw [hg1, foldl_removeNode_nodes]
        exact filter_key_map_zero (fun id => !(D.contains id)) g0.nodes
      rw [hinit]
      exact hcorr
    have hdead2 : (tally.filter (fun p => !(D.contains p.1))).filter
        (fun p => p.2 = 0) = [] := by
      rw [List.filter_eq_nil_iff]
      intro p hp
      have hp2 := List.mem_filter.mp hp
      intro hz
      have hz0 : p.2 = 0 := by simpa using hz
      have hfind : findEntry tally p.1 = some p.2 := mem_findEntry hndt (by simpa using hp2.1)
      have hcont : D.contains p.1 = true := by
        rw [hD, dead_contains_iff hndt p.1]
        rw [hfind, hz0]
      rw [hcont] at hp2
      simpa using hp2.2
    have hprune1 : pruneOrphanNodes g1 rfuel fuel = some g1 := by
      simp only [pruneOrphanNodes, hcount1, hdead2]
      simp
    simp only [subThenPrune, hsub1, hprune1]

/-- Witness for claim C6: on the scenario graph, one substitute+prune pass
produces a concrete graph, and the theorem applied there shows a second pass
returns that graph unchanged. -/
theorem claim6_substitute_prune_idempotent_witness :
    ((scenarioGraph.nodes.map Prod.fst).Nodup ∧
      (∀ p ∈ scenarioGraph.nodes, (p.2.edges.map Prod.fst).Nodup) ∧
      subThenPrune scenarioGraph false 10 10 = some
        { nodes := [("root", { edges := [("nixpkgs", .indexed "n1"),
                                         ("foo", .indexed "n2")] }),
                    ("n1", { edges := [] }),
                    ("n2", { edges := [("nixpkgs", .follows ["nixpkgs"])] })],
          rootIndex := "root", version := 7 }) ∧
    subThenPrune
        { nodes := [("root", { edges := [("nixpkgs", .indexed "n1"),
                                         ("foo", .indexed "n2")] }),
                    ("n1", { edges := [] }),
                    ("n2", { edges := [("nixpkgs", .follows ["nixpkgs"])] })],
          rootIndex := "root", version := 7 } false 10 10 = some
        { nodes := [("root", { edges := [("nixpkgs", .indexed "n1"),
                                         ("foo", .indexed "n2")] }),
                    ("n1", { edges := [] }),
                    ("n2", { edges := [("nixpkgs", .follows ["nixpkgs"])] })],
          rootIndex := "root", version := 7 } :=
  ⟨⟨by decide, by decide, by decide⟩,
    claim6_substitute_prune_idempotent scenarioGraph false 10 10 _
      (by decide) (by decide) (by decide)⟩
